import Mathlib

/-!
# wc-lang-packs-server: a shallow embedding of `main.go`

The Go program mirrors GlotPress translation sets into zip language packs and
answers lookups from an in-memory three-level map.  This file embeds the
functions of `main.go` and `locales/locales.go` as executable Lean
definitions and states properties of them.

Conventions of the embedding.

* A Go `string` is a Lean `String`; the string routines of the Go standard
  library that the program calls (`strings.TrimPrefix`, `strings.Split`,
  `filepath.Clean`, `filepath.Join`) are written over the character list
  `String.data`, for a host whose path separator is `/`.
* A Go function that may fault at run time (index out of range, nil
  dereference, failed type assertion) returns `Run α`.
* The outside world (HTTP, file system, JSON syntax, command line flags,
  the generated locale table) is the record `Env`; its fields are the
  answers the world gives to each call.
* A Go `map[string]T` is an association list with first-match lookup.
* The synchronizer state carries, next to the index, the list of the
  `buildPackageZip` calls made, so that "no rebuild" and "exactly one build"
  can be stated.

A theorem whose name begins with `C1` ... `C10` states the property of the
specification with that number; where the program does not have the property
as written, a closed counterexample stands next to the statement that holds.
-/

namespace WcLangPacks

/-! ## Outcomes of running Go code -/

/-- Result of running a Go function: it returns a value, or the goroutine
faults with a run-time panic. -/
inductive Run (α : Type) where
  | ret (a : α)
  | fault (msg : String)
  deriving DecidableEq, Repr

/-! ## Go strings and paths -/

/-- The characters of `s` after dropping the leading `p`, when `s` starts
with `p`; `none` otherwise. -/
def stripChars : List Char → List Char → Option (List Char)
  | [], s => some s
  | _ :: _, [] => none
  | p :: ps, c :: cs => if p = c then stripChars ps cs else none

/-- Go `strings.TrimPrefix(s, pre)`: `s` without the leading `pre`, or `s`
itself when it does not start with `pre`. -/
def trimPrefixStr (s pre : String) : String :=
  match stripChars pre.data s.data with
  | some r => ⟨r⟩
  | none => s

/-- Split a character list at every occurrence of `sep`. The result is never
empty: a list without `sep` gives one piece. -/
def splitChars (sep : Char) : List Char → List (List Char)
  | [] => [[]]
  | c :: cs =>
    if c = sep then [] :: splitChars sep cs
    else
      match splitChars sep cs with
      | [] => [[c]]
      | h :: t => (c :: h) :: t

/-- Go `strings.Split(s, "/")`. -/
def splitSlash (s : String) : List String :=
  (splitChars '/' s.data).map String.mk

/-- Go `strings.Join(elems, "/")` on character lists. -/
def slashJoin : List (List Char) → List Char
  | [] => []
  | [x] => x
  | x :: y :: r => x ++ '/' :: slashJoin (y :: r)

/-- One step of the lexical cleaning loop of `filepath.Clean`: `stack` holds
the path elements kept so far, last one first. Empty and `.` elements are
dropped; `..` removes the last real element, is kept in front of a relative
path that has nothing to remove, and is dropped at the root. -/
def cleanStep (rooted : Bool) (stack : List (List Char)) (c : List Char) :
    List (List Char) :=
  if c = [] then stack
  else if c = ['.'] then stack
  else if c = ['.', '.'] then
    match stack with
    | [] => if rooted then [] else [c]
    | top :: rest => if top = ['.', '.'] then c :: stack else rest
  else c :: stack

/-- Go `filepath.Clean` on character lists. -/
def cleanChars (p : List Char) : List Char :=
  if p = [] then ['.']
  else
    let rooted := p.head? == some '/'
    let body := slashJoin ((splitChars '/' p).foldl (cleanStep rooted) []).reverse
    if rooted then '/' :: body
    else if body = [] then ['.'] else body

/-- Go `filepath.Clean(path)`. -/
def filepathClean (p : String) : String := ⟨cleanChars p.data⟩

/-- Go `filepath.Join` on character lists: leading empty elements are
skipped, the rest is joined with `/` and cleaned; no non-empty element gives
the empty string. -/
def joinChars : List (List Char) → List Char
  | [] => []
  | e :: es => if e = [] then joinChars es else cleanChars (slashJoin (e :: es))

/-- Go `filepath.Join(elems...)`. -/
def filepathJoin (elems : List String) : String :=
  ⟨joinChars (elems.map String.data)⟩

/-- Inputs and results of `Clean` listed in the tests of Go's
`path/filepath` for a host with `/` as separator. -/
def goCleanVectors : List (String × String) :=
  [("", "."), ("abc", "abc"), ("abc/def", "abc/def"), ("a/b/c", "a/b/c"), (".", "."),
   ("..", ".."), ("../..", "../.."), ("../../abc", "../../abc"), ("/abc", "/abc"),
   ("/", "/"), ("abc/", "abc"), ("abc/def/", "abc/def"), ("a/b/c/", "a/b/c"), ("./", "."),
   ("../", ".."), ("../../", "../.."), ("/abc/", "/abc"), ("abc//def//ghi", "abc/def/ghi"),
   ("//abc", "/abc"), ("///abc", "/abc"), ("//abc//", "/abc"), ("abc//", "abc"),
   ("abc/./def", "abc/def"), ("/./abc/def", "/abc/def"), ("abc/.", "abc"),
   ("abc/def/ghi/../jkl", "abc/def/jkl"), ("abc/def/../ghi/../jkl", "abc/jkl"),
   ("abc/def/..", "abc"), ("abc/def/../..", "."), ("/abc/def/../..", "/"),
   ("abc/def/../../..", ".."), ("/abc/def/../../..", "/"),
   ("abc/def/../../../ghi/jkl/../../../mno", "../../mno"), ("/../abc", "/abc"),
   ("abc/./../def", "def"), ("abc//./../def", "def"), ("abc/../../././../def", "../../def")]

/-- Inputs and results of `Join` listed in the same tests. -/
def goJoinVectors : List (List String × String) :=
  [([], ""), ([""], ""), (["a"], "a"), (["a", "b"], "a/b"), (["a", ""], "a"),
   (["", "b"], "b"), (["/", "a"], "/a"), (["/", ""], "/"), (["a/", "b"], "a/b"),
   (["a/", ""], "a"), (["", ""], ""), (["/", "a", "b"], "/a/b"), (["//", "a"], "/a")]

/-! ## Data model (`main.go` lines 25-85) -/

/-- Go struct `Translation`: one cache entry. -/
structure Translation where
  Language : String
  LastModified : String
  EnglishName : String
  NativeName : String
  Package : String
  deriving DecidableEq, Repr

/-- Go struct `TranslationSet`. -/
structure TranslationSet where
  Name : String
  Locale : String
  WPLocale : String
  LastModified : String
  deriving DecidableEq, Repr

/-- Go struct `SubProject`. -/
structure SubProject where
  Slug : String
  Path : String
  Active : String
  deriving DecidableEq, Repr

/-- Go struct `Project`. -/
structure Project where
  TranslationSets : List TranslationSet
  SubProjects : List SubProject
  deriving DecidableEq, Repr

/-- One row of the generated table `locales` of package `locales` (the
table itself is not part of the sources at hand; the fields are the ones
`GetLocaleProp` reads). -/
structure GPLocale where
  EnglishName : String
  NativeName : String
  LangCodeISO6391 : String
  LangCodeISO6392 : String
  LangCodeISO6393 : String
  deriving DecidableEq, Repr

/-- What `http.Get` hands back. With a nil error the response is non-nil
and `ok` carries its body. With an error the response is nil (`resp = none`,
a failure of the transport) or, when a redirect was refused, non-nil. -/
inductive HttpResult where
  | ok (body : String)
  | error (msg : String) (resp : Option String)
  deriving DecidableEq, Repr

/-- The world around the program. `gpURL`, `gpApiURL` and `downloadsPath`
are the values of the flags, `tempDir` is `os.TempDir()`, `localeTable` is
the generated map `locales`. The other fields answer the calls that leave
the process; a Go `error` is `some msg`, nil is `none`:
`httpGet url` is `http.Get(url)`; `decodeProject body` is
`json.NewDecoder(resp.Body).Decode(&p)` with the pointer it leaves in `p`
(it may fault inside `UnmarshalJSON`); `mkdirAll dir` is
`os.MkdirAll(dir, 0755)`; `osCreate file` is `os.Create(file)`;
`ioCopy file body` is `io.Copy(f, resp.Body)`; `fileClose file` is
`f.Close()`; `zipPOMOFiles src dst` is the error of the archive writer
`zipPOMOFiles(src, dst)`, taken as a whole. -/
structure Env where
  gpURL : String
  gpApiURL : String
  downloadsPath : String
  tempDir : String
  localeTable : String → Option GPLocale
  httpGet : String → HttpResult
  decodeProject : String → Run (Option Project × Option String)
  mkdirAll : String → Option String
  osCreate : String → Option String
  ioCopy : String → String → Option String
  fileClose : String → Option String
  zipPOMOFiles : String → String → Option String

/-! ## Artifact builder (`main.go` lines 335-408) -/

/-- Go `downloadTranslation`: the error it returns. The status code of the
response is not looked at. -/
def downloadTranslation (E : Env) (url dst : String) : Option String :=
  match E.httpGet url with
  | .error e _ => some e
  | .ok body =>
    match E.osCreate dst with
    | some e => some e
    | none =>
      match E.ioCopy dst body with
      | some e => some e
      | none => E.fileClose dst

/-- Go `getPackageURL`. -/
def getPackageURL (path lpName : String) : String :=
  "/downloads/" ++ path ++ "/" ++ lpName

/-- File-system and network calls made by `buildPackageZip`, in order. -/
inductive FsEvent where
  | mkdirAll (dir : String)
  | download (url dst : String)
  | zip (srcDir dst : String)
  | remove (file : String)
  | removeAll (dir : String)
  deriving DecidableEq, Repr

/-- A run of `buildPackageZip`: the calls it made and how it ended. -/
structure BuildRun where
  events : List FsEvent
  out : Run String
  deriving DecidableEq, Repr

/-- Go `buildPackageZip`. `parts[1]` faults when the trimmed path has no
`/`; every failed step returns the empty string; deferred removals run in
reverse order of registration on every return after they were registered. -/
def buildPackageZip (E : Env) (path0 locale : String) : BuildRun :=
  let path := trimPrefixStr path0 "woocommerce/"
  match splitSlash path with
  | p0 :: p1 :: _ =>
    let lpName := p0 ++ "-" ++ p1 ++ "-" ++ locale ++ ".zip"
    let pomoDir := filepathJoin [E.tempDir, filepathClean path, locale]
    match E.mkdirAll pomoDir with
    | some _ => ⟨[.mkdirAll pomoDir], .ret ""⟩
    | none =>
      let exportURL := E.gpURL ++ "/" ++ path ++ "/" ++ locale
      let po := filepathJoin [pomoDir, p0 ++ "-" ++ locale ++ ".po"]
      match downloadTranslation E (exportURL ++ "?format=po") po with
      | some _ =>
        ⟨[.mkdirAll pomoDir, .download (exportURL ++ "?format=po") po,
          .removeAll pomoDir], .ret ""⟩
      | none =>
        let mo := filepathJoin [pomoDir, p0 ++ "-" ++ locale ++ ".mo"]
        match downloadTranslation E (exportURL ++ "?format=mo") mo with
        | some _ =>
          ⟨[.mkdirAll pomoDir, .download (exportURL ++ "?format=po") po,
            .download (exportURL ++ "?format=mo") mo,
            .remove po, .removeAll pomoDir], .ret ""⟩
        | none =>
          let lpDir := filepathJoin [E.downloadsPath, filepathClean path]
          match E.mkdirAll lpDir with
          | some _ =>
            ⟨[.mkdirAll pomoDir, .download (exportURL ++ "?format=po") po,
              .download (exportURL ++ "?format=mo") mo, .mkdirAll lpDir,
              .remove mo, .remove po, .removeAll pomoDir], .ret ""⟩
          | none =>
            let zipDst := filepathJoin [lpDir, lpName]
            match E.zipPOMOFiles pomoDir zipDst with
            | some _ =>
              ⟨[.mkdirAll pomoDir, .download (exportURL ++ "?format=po") po,
                .download (exportURL ++ "?format=mo") mo, .mkdirAll lpDir,
                .zip pomoDir zipDst,
                .remove mo, .remove po, .removeAll pomoDir], .ret ""⟩
            | none =>
              ⟨[.mkdirAll pomoDir, .download (exportURL ++ "?format=po") po,
                .download (exportURL ++ "?format=mo") mo, .mkdirAll lpDir,
                .zip pomoDir zipDst,
                .remove mo, .remove po, .removeAll pomoDir],
               .ret (getPackageURL path lpName)⟩
  | _ => ⟨[], .fault "index out of range [1] with length 1"⟩

/-- A world in which every build step succeeds, with the default flag
values of `main.go` on a host whose temporary directory is `/tmp`. -/
def okEnv : Env where
  gpURL := "https://translate.wordpress.com/projects/"
  gpApiURL := "https://translate.wordpress.com/api/projects/"
  downloadsPath := "/srv/downloads"
  tempDir := "/tmp"
  localeTable := fun _ => none
  httpGet := fun _ => .ok ""
  decodeProject := fun _ => .ret (none, some "EOF")
  mkdirAll := fun _ => none
  osCreate := fun _ => none
  ioCopy := fun _ _ => none
  fileClose := fun _ => none
  zipPOMOFiles := fun _ _ => none

/-- The archive-writing calls among the events of a run. -/
def zipEvents (r : BuildRun) : List FsEvent :=
  r.events.filter fun ev =>
    match ev with
    | .zip _ _ => true
    | _ => false

/-- The world `okEnv` with a downloads path that ends in `/`. -/
def slashEnv : Env := { okEnv with downloadsPath := "/srv/downloads/" }

/-- Every file-system and network step of the builder succeeds in `E`. -/
def Env.AllStepsSucceed (E : Env) : Prop :=
  (∀ d, E.mkdirAll d = none) ∧ (∀ u d, downloadTranslation E u d = none) ∧
    (∀ s d, E.zipPOMOFiles s d = none)

/-- A path element that `filepath.Clean` keeps as it is: not empty, without
`/`, and neither `.` nor `..`. -/
def PlainSeg (s : String) : Prop :=
  s ≠ "" ∧ '/' ∉ s.data ∧ s ≠ "." ∧ s ≠ ".."

/-- A directory path in the form `filepath.Clean` produces, other than the
root `/` and the current directory `.`. -/
def CleanDir (d : String) : Prop :=
  filepathClean d = d ∧ d ≠ "/" ∧ d ≠ "."

/-! ## Decoding a translation set (`main.go` lines 50-77) -/

/-- A decoded JSON value, as `json.Unmarshal` stores it in an `interface{}`:
`nil`, `bool`, `float64` (kept as its literal), `string`, `[]interface{}`
and `map[string]interface{}`. The pairs of an object are the entries of the
Go map in the order the `range` loop visits them. -/
inductive JValue where
  | null
  | bool (b : Bool)
  | num (lit : String)
  | str (s : String)
  | arr (xs : List JValue)
  | obj (kvs : List (String × JValue))

/-- Body of the `switch k` of `UnmarshalJSON` for one map entry. The
assertions `v.(string)` fault on any other dynamic type; the fourth case is
spelled `last_modfified` in the source. -/
def unmarshalField (now : String) (ts : TranslationSet) (k : String) (v : JValue) :
    Run TranslationSet :=
  if k = "name" then
    match v with
    | .str s => .ret { ts with Name := s }
    | _ => .fault "interface conversion: interface {} is not string"
  else if k = "locale" then
    match v with
    | .str s => .ret { ts with Locale := s }
    | _ => .fault "interface conversion: interface {} is not string"
  else if k = "wp_locale" then
    match v with
    | .str s => .ret { ts with WPLocale := s }
    | _ => .fault "interface conversion: interface {} is not string"
  else if k = "last_modfified" then
    match v with
    | .str s => .ret { ts with LastModified := s }
    | _ => .ret { ts with LastModified := now }
  else .ret ts

/-- The loop `for k, v := range m` of `UnmarshalJSON`. -/
def unmarshalFields (now : String) : TranslationSet → List (String × JValue) →
    Run TranslationSet
  | ts, [] => .ret ts
  | ts, (k, v) :: rest =>
    match unmarshalField now ts k v with
    | .ret ts1 => unmarshalFields now ts1 rest
    | .fault msg => .fault msg

/-- Go `(*TranslationSet).UnmarshalJSON`. `jsonUnmarshal` is
`json.Unmarshal(data, &i)` for `i interface{}` (an error for text that is
not JSON), `now` is `time.Now().Format("2006-01-02 15:04:05")`. The result
is the receiver after the call and the returned error. -/
def TranslationSet.UnmarshalJSON (jsonUnmarshal : String → Except String JValue)
    (now : String) (ts : TranslationSet) (data : String) :
    Run (TranslationSet × Option String) :=
  match jsonUnmarshal data with
  | .error e => .ret (ts, some e)
  | .ok (.obj m) =>
    match unmarshalFields now ts m with
    | .ret ts1 => .ret (ts1, none)
    | .fault msg => .fault msg
  | .ok _ => .fault "interface conversion: interface {} is not map[string]interface {}"

/-- The zero value of `TranslationSet`, which `encoding/json` allocates
before calling `UnmarshalJSON`. -/
def TranslationSet.zero : TranslationSet := ⟨"", "", "", ""⟩

/-! ## The index (`main.go` line 100) -/

/-- Go `map[string]T` as an association list. -/
abbrev GoMap (α : Type) := List (String × α)

/-- Go `m[k]` with the comma-ok form: the first entry under `k`. -/
def mapGet {α : Type} : GoMap α → String → Option α
  | [], _ => none
  | (k, v) :: rest, key => if k = key then some v else mapGet rest key

/-- Go `m[k] = v`: replaces the entry under `k`, or adds one. -/
def mapSet {α : Type} : GoMap α → String → α → GoMap α
  | [], key, val => [(key, val)]
  | (k, v) :: rest, key, val =>
    if k = key then (k, val) :: rest else (k, v) :: mapSet rest key val

/-- The global `db`: project slug, then version slug, then wp_locale. The
stored pointers are never nil and never written through after they are
stored, so a value stands for each. -/
abbrev DB := GoMap (GoMap (GoMap Translation))

/-- Go `db[slug][ver]` (a missing level reads as a nil map). -/
def lookupVer (db : DB) (slug ver : String) : Option (GoMap Translation) :=
  (mapGet db slug).bind fun m => mapGet m ver

/-- Go `db[slug][ver][locale]`. -/
def lookupLeaf (db : DB) (slug ver locale : String) : Option Translation :=
  (lookupVer db slug ver).bind fun m => mapGet m locale

/-- Go `db[slug][ver] = m`, at a point where `db[slug]` has been made. -/
def setVer (db : DB) (slug ver : String) (m : GoMap Translation) : DB :=
  mapSet db slug (mapSet ((mapGet db slug).getD []) ver m)

/-- Go `db[slug][ver][locale] = t`, at a point where both outer levels have
been made. -/
def setLeaf (db : DB) (slug ver locale : String) (t : Translation) : DB :=
  setVer db slug ver (mapSet ((lookupVer db slug ver).getD []) locale t)

/-! ## Query handler (`main.go` lines 152-233) -/

/-- The three query parameters `handlePlugins` reads; `Query().Get` gives
the empty string for a parameter that is not there. -/
structure Query where
  slug : String
  version : String
  locale : String
  deriving DecidableEq, Repr

/-- One value handed to `json.NewEncoder(w).Encode`. -/
inductive Payload where
  | error (code message : String)
  | listing (m : GoMap Translation)
  | single (t : Option Translation)
  deriving DecidableEq, Repr

/-- What the `http.ResponseWriter` has received: the status line (the
first `WriteHeader` wins, a write before any `WriteHeader` sends 200) and the
encoded values in order. -/
structure Response where
  wroteHeader : Bool
  status : Nat
  body : List Payload
  deriving DecidableEq, Repr

/-- Go `w.WriteHeader(c)`. -/
def Response.writeHeader (w : Response) (c : Nat) : Response :=
  if w.wroteHeader then w else { w with wroteHeader := true, status := c }

/-- Go `json.NewEncoder(w).Encode(v)`. `wr v` is the error of encoding and
writing `v`, `none` when the value reaches the client. -/
def Response.encode (wr : Payload → Option String) (w : Response) (v : Payload) :
    Response × Option String :=
  match wr v with
  | some e => (w, some e)
  | none => ({ w.writeHeader 200 with body := w.body ++ [v] }, none)

/-- The `switch code` of `jsonError`. -/
def statusOf (code : String) : Nat :=
  if code = "missing_slug" then 400
  else if code = "missing_version" then 400
  else if code = "translation_does_not_exist" then 404
  else 500

/-- Go `jsonError`; the error of its own `Encode` is dropped. -/
def jsonError (wr : Payload → Option String) (code message : String) (w : Response) :
    Response :=
  ((w.writeHeader (statusOf code)).encode wr (.error code message)).1

/-- Go `handlePlugins`. The listing branch returns only on its two error
paths, and the `jsonError` of the single-locale miss is not followed by a
`return`, as in the source. -/
def handlePlugins (wr : Payload → Option String) (db : DB) (q : Query) : Response :=
  let w0 : Response := ⟨false, 200, []⟩
  if q.slug = "" then jsonError wr "missing_slug" "Missing slug in query string" w0
  else if q.version = "" then
    jsonError wr "missing_version" "Missing version in query string" w0
  else
    let listed : Response × Bool :=
      if q.locale = "" then
        match lookupVer db q.slug q.version with
        | none =>
          (jsonError wr "translation_does_not_exist"
            ("Translation for plugin " ++ q.slug ++ " version " ++ q.version ++
              " does not exist") w0, true)
        | some m =>
          match w0.encode wr (.listing m) with
          | (w1, some e) => (jsonError wr "error_json_encode" e w1, true)
          | (w1, none) => (w1, false)
      else (w0, false)
    if listed.2 then listed.1
    else
      let w2 :=
        match lookupLeaf db q.slug q.version q.locale with
        | none =>
          jsonError wr "translation_does_not_exist"
            ("Translation " ++ q.locale ++ " for plugin " ++ q.slug ++ " version " ++
              q.version) listed.1
        | some _ => listed.1
      match w2.encode wr (.single (lookupLeaf db q.slug q.version q.locale)) with
      | (w3, some e) => jsonError wr "error_json_encode" e w3
      | (w3, none) => w3

/-! ## Remote project client (`main.go` lines 314-333) -/

/-- Go `getApiURL`. -/
def getApiURL (E : Env) (path : String) : String := E.gpApiURL ++ path

/-- Go `(*GPChecker).fetchProject`: the decoded project pointer and the
error. `defer resp.Body.Close()` is evaluated before `err` is looked at and
dereferences `resp`. -/
def fetchProject (E : Env) (path : String) : Run (Option Project × Option String) :=
  match E.httpGet (getApiURL E path) with
  | .error _ none => .fault "invalid memory address or nil pointer dereference"
  | .error e (some _) => .ret (none, some e)
  | .ok body => E.decodeProject body

/-! ## Locale metadata (`locales/locales.go`, `main.go` lines 464-472) -/

/-- Go `locales.GetLocaleProp`, over the table of the environment. -/
def GetLocaleProp (E : Env) (locale prop : String) : String :=
  match E.localeTable locale with
  | none => ""
  | some v =>
    if prop = "EnglishName" then v.EnglishName
    else if prop = "NativeName" then v.NativeName
    else if prop = "LangCodeISO6391" then v.LangCodeISO6391
    else if prop = "LangCodeISO6392" then v.LangCodeISO6392
    else if prop = "LangCodeISO6393" then v.LangCodeISO6393
    else ""

/-- Go `getTranslationByLocale`. -/
def getTranslationByLocale (E : Env) (locale : String) : Translation where
  Language := locale
  LastModified := ""
  EnglishName := GetLocaleProp E locale "EnglishName"
  NativeName := GetLocaleProp E locale "NativeName"
  Package := ""

/-! ## Synchronizer (`main.go` lines 235-312) -/

/-- One call `buildPackageZip(path, locale)`, with the project slug and
the version slug of the leaf the loop was at when it made the call. -/
structure BuildCall where
  pSlug : String
  pvSlug : String
  path : String
  locale : String
  deriving DecidableEq, Repr

/-- State the poll loop works on: the global `db`, the field `gpc.err`, and
the list of `buildPackageZip` calls made so far, oldest first. -/
structure PollState where
  db : DB
  err : Option String
  builds : List BuildCall
  deriving DecidableEq, Repr

/-- The calls made for one leaf. -/
def buildsFor (slug ver locale : String) (log : List BuildCall) : List BuildCall :=
  log.filter fun c => decide (c.pSlug = slug ∧ c.pvSlug = ver ∧ c.locale = locale)

/-- Lines 294-298 and again 303-307: make the record, build the package,
store the record. -/
def storeBuilt (E : Env) (pSlug pvSlug pvPath : String) (st : PollState)
    (ts : TranslationSet) : Run PollState :=
  match (buildPackageZip E pvPath ts.WPLocale).out with
  | .fault msg => .fault msg
  | .ret pkg =>
    .ret { st with
      db := setLeaf st.db pSlug pvSlug ts.WPLocale
        { getTranslationByLocale E ts.WPLocale with
          LastModified := ts.LastModified, Package := pkg }
      builds := st.builds ++ [⟨pSlug, pvSlug, pvPath, ts.WPLocale⟩] }

/-- Body of the loop over translation sets (lines 291-309). -/
def pollLeaf (E : Env) (pSlug pvSlug pvPath : String) (st : PollState)
    (ts : TranslationSet) : Run PollState :=
  let first : Run PollState :=
    match lookupLeaf st.db pSlug pvSlug ts.WPLocale with
    | some _ => .ret st
    | none => storeBuilt E pSlug pvSlug pvPath st ts
  match first with
  | .fault msg => .fault msg
  | .ret st1 =>
    match lookupLeaf st1.db pSlug pvSlug ts.WPLocale with
    | none => .fault "invalid memory address or nil pointer dereference"
    | some cur =>
      if cur.LastModified ≠ ts.LastModified then storeBuilt E pSlug pvSlug pvPath st1 ts
      else .ret st1

/-- Lines 266-268: make the project level when it is missing. -/
def ensureSlug (st : PollState) (pSlug : String) : PollState :=
  match mapGet st.db pSlug with
  | some _ => st
  | none => { st with db := mapSet st.db pSlug [] }

/-- Lines 286-288: make the version level when it is missing. -/
def ensureVer (st : PollState) (pSlug pvSlug : String) : PollState :=
  match lookupVer st.db pSlug pvSlug with
  | some _ => st
  | none => { st with db := setVer st.db pSlug pvSlug [] }

/-- A Go `for _, x := range xs` whose body may fault. -/
def forRange {σ α : Type} (body : σ → α → Run σ) : σ → List α → Run σ
  | s, [] => .ret s
  | s, x :: xs =>
    match body s x with
    | .ret s1 => forRange body s1 xs
    | .fault msg => .fault msg

/-- Body of the loop over the versions of an extension (lines 277-310). A
nil project without error comes from a body `null`; the fault is then at
`v.TranslationSets`, after the version level was made. -/
def pollVersion (E : Env) (pSlug : String) (st : PollState) (pv : SubProject) :
    Run PollState :=
  match fetchProject E pv.Path with
  | .fault msg => .fault msg
  | .ret (_, some _) => .ret st
  | .ret (none, none) => .fault "invalid memory address or nil pointer dereference"
  | .ret (some v, none) =>
    forRange (pollLeaf E pSlug pv.Slug pv.Path) (ensureVer st pSlug pv.Slug)
      v.TranslationSets

/-- Body of the loop over the extensions (lines 264-311). The project
level is made before the fetch, so it stays when the fetch returns an
error. -/
def pollProject (E : Env) (st : PollState) (p : SubProject) : Run PollState :=
  let st1 := ensureSlug st p.Slug
  match fetchProject E p.Path with
  | .fault msg => .fault msg
  | .ret (_, some _) => .ret st1
  | .ret (none, none) => .fault "invalid memory address or nil pointer dereference"
  | .ret (some fp, none) => forRange (pollVersion E p.Slug) st1 fp.SubProjects

/-- Go `(*GPChecker).poll`. -/
def poll (E : Env) (st : PollState) : Run PollState :=
  match fetchProject E "woocommerce" with
  | .fault msg => .fault msg
  | .ret (_, some e) => .ret { st with err := some e }
  | .ret (none, none) => .fault "invalid memory address or nil pointer dereference"
  | .ret (some wc, none) => forRange (pollProject E) st wc.SubProjects

/-- The project a fetch yields when it returns without error. -/
def fetched (E : Env) (path : String) : Option Project :=
  match fetchProject E path with
  | .ret (some p, none) => some p
  | _ => none

/-- The leaves a cycle visits, in order: project slug, version slug, and
the translation set seen there. -/
def observedLeaves (E : Env) : List (String × String × TranslationSet) :=
  match fetched E "woocommerce" with
  | none => []
  | some wc =>
    wc.SubProjects.flatMap fun p =>
      match fetched E p.Path with
      | none => []
      | some fp =>
        fp.SubProjects.flatMap fun pv =>
          match fetched E pv.Path with
          | none => []
          | some v => v.TranslationSets.map fun ts => (p.Slug, pv.Slug, ts)

/-- The `buildPackageZip` calls a cycle can make, one for each visit of a
leaf: the project slug and the version slug of the leaf, the path of the
version under which it is visited, and the wp_locale. -/
def observedCalls (E : Env) : List BuildCall :=
  match fetched E "woocommerce" with
  | none => []
  | some wc =>
    wc.SubProjects.flatMap fun p =>
      match fetched E p.Path with
      | none => []
      | some fp =>
        fp.SubProjects.flatMap fun pv =>
          match fetched E pv.Path with
          | none => []
          | some v => v.TranslationSets.map fun ts => ⟨p.Slug, pv.Slug, pv.Path, ts.WPLocale⟩

/-! ## Worlds and indexes used as instances -/

/-- The record the scenario of the specification stores for `es_ES`. -/
def esTranslation : Translation :=
  ⟨"es_ES", "2024-01-01 00:00:00", "Spanish (Spain)", "Español",
    "/downloads/woocommerce-bookings/stable/woocommerce-bookings-stable-es_ES.zip"⟩

/-- An index that holds one leaf: `woocommerce-bookings`, `stable`, `es_ES`. -/
def esIndex : DB := [("woocommerce-bookings", [("stable", [("es_ES", esTranslation)])])]

/-- A response writer on which every `Encode` succeeds. -/
def okWriter : Payload → Option String := fun _ => none

/-- A world that serves the hierarchy of the scenario of the specification:
the root `woocommerce` with the extension `woocommerce-bookings`, its
version `stable`, and there the translation sets `sets`. `http.Get` fails
at the transport exactly for the URLs `dlFails` picks and answers every other
one (the body stands for the URL asked); the file system never fails. -/
def scenarioEnv (sets : List TranslationSet) (dlFails : String → Bool) : Env where
  gpURL := "https://translate.wordpress.com/projects/"
  gpApiURL := "https://translate.wordpress.com/api/projects/"
  downloadsPath := "/srv/downloads"
  tempDir := "/tmp"
  localeTable := fun l =>
    if l = "es_ES" then some ⟨"Spanish (Spain)", "Español", "es", "spa", "spa"⟩
    else if l = "de_DE" then some ⟨"German", "Deutsch", "de", "deu", "deu"⟩
    else none
  httpGet := fun url => if dlFails url then .error "connection refused" none else .ok url
  decodeProject := fun body =>
    if body = "https://translate.wordpress.com/api/projects/woocommerce" then
      .ret (some ⟨[], [⟨"woocommerce-bookings", "woocommerce/woocommerce-bookings", "1"⟩]⟩,
        none)
    else if body = "https://translate.wordpress.com/api/projects/woocommerce/woocommerce-bookings"
    then
      .ret (some ⟨[], [⟨"stable", "woocommerce/woocommerce-bookings/stable", "1"⟩]⟩, none)
    else if body =
        "https://translate.wordpress.com/api/projects/woocommerce/woocommerce-bookings/stable"
    then .ret (some ⟨sets, []⟩, none)
    else .ret (none, some "unexpected end of JSON input")
  mkdirAll := fun _ => none
  osCreate := fun _ => none
  ioCopy := fun _ _ => none
  fileClose := fun _ => none
  zipPOMOFiles := fun _ _ => none

/-- The translation set of the scenario of the specification. -/
def esSet : TranslationSet := ⟨"Spanish (Spain)", "es", "es_ES", "2024-01-01 00:00:00"⟩

/-- A German translation set, a sibling of `esSet`. -/
def deSet : TranslationSet := ⟨"German", "de", "de_DE", "2024-02-02 00:00:00"⟩

/-- A second German set for the same wp_locale (GlotPress keeps a formal
variant of a locale as a set of its own), with its own marker. -/
def deFormalSet : TranslationSet := ⟨"German (Formal)", "de", "de_DE", "2024-03-03 00:00:00"⟩

/-- The Spanish set of the scenario seen again with a later marker. -/
def esSetNew : TranslationSet := ⟨"Spanish (Spain)", "es", "es_ES", "2024-05-05 00:00:00"⟩

/-- No export download fails. -/
def noFail : String → Bool := fun _ => false

/-- The download of the `.po` export of `es_ES` fails, every other one
succeeds. -/
def esPoFails : String → Bool := fun url =>
  decide (url =
    "https://translate.wordpress.com/projects//woocommerce-bookings/stable/es_ES?format=po")

/-- The state after one cycle over the Spanish and the German set, from a
fresh process, when every build succeeds. -/
def afterFirstCycle : PollState :=
  ⟨[("woocommerce-bookings", [("stable",
      [("es_ES", esTranslation),
       ("de_DE", ⟨"de_DE", "2024-02-02 00:00:00", "German", "Deutsch",
          "/downloads/woocommerce-bookings/stable/woocommerce-bookings-stable-de_DE.zip"⟩)])])],
    none,
    [⟨"woocommerce-bookings", "stable", "woocommerce/woocommerce-bookings/stable", "es_ES"⟩,
     ⟨"woocommerce-bookings", "stable", "woocommerce/woocommerce-bookings/stable", "de_DE"⟩]⟩

/-- The state after one cycle over the two German sets, from a fresh
process, when every build succeeds: the record of the second set, and two
builds. -/
def afterGermanCycle : PollState :=
  ⟨[("woocommerce-bookings", [("stable",
      [("de_DE", ⟨"de_DE", "2024-03-03 00:00:00", "German", "Deutsch",
          "/downloads/woocommerce-bookings/stable/woocommerce-bookings-stable-de_DE.zip"⟩)])])],
    none,
    [⟨"woocommerce-bookings", "stable", "woocommerce/woocommerce-bookings/stable", "de_DE"⟩,
     ⟨"woocommerce-bookings", "stable", "woocommerce/woocommerce-bookings/stable", "de_DE"⟩]⟩

/-- The world of the scenario with a second version `trunk` of the
extension: `stable` lists `stableSets`, `trunk` lists `trunkSets`. -/
def twoVersionEnv (stableSets trunkSets : List TranslationSet) (dlFails : String → Bool) :
    Env :=
  { scenarioEnv stableSets dlFails with
    decodeProject := fun body =>
      if body = "https://translate.wordpress.com/api/projects/woocommerce" then
        .ret (some ⟨[], [⟨"woocommerce-bookings", "woocommerce/woocommerce-bookings", "1"⟩]⟩,
          none)
      else if body =
          "https://translate.wordpress.com/api/projects/woocommerce/woocommerce-bookings"
      then
        .ret (some ⟨[], [⟨"stable", "woocommerce/woocommerce-bookings/stable", "1"⟩,
          ⟨"trunk", "woocommerce/woocommerce-bookings/trunk", "1"⟩]⟩, none)
      else if body =
          "https://translate.wordpress.com/api/projects/woocommerce/woocommerce-bookings/stable"
      then .ret (some ⟨stableSets, []⟩, none)
      else if body =
          "https://translate.wordpress.com/api/projects/woocommerce/woocommerce-bookings/trunk"
      then .ret (some ⟨trunkSets, []⟩, none)
      else .ret (none, some "unexpected end of JSON input") }

/-- An index that holds `de_DE` under a marker of January. -/
def deIndexOld : DB :=
  [("woocommerce-bookings", [("stable",
    [("de_DE", ⟨"de_DE", "2024-01-01 00:00:00", "German", "Deutsch",
      "/downloads/woocommerce-bookings/stable/woocommerce-bookings-stable-de_DE.zip"⟩)])])]

/-- The export and every project below the root are unreachable: only the
root project is served. -/
def belowRootFails : String → Bool := fun url =>
  decide (url ≠ "https://translate.wordpress.com/api/projects/woocommerce")

/-- The state of a fresh process: empty index, no error, no build made. -/
def freshState : PollState := ⟨[], none, []⟩

/-! ## Predicates on the index used in the statements -/

/-- The index holds an entry for the leaf and its marker is `marker`. -/
def SyncedAt (db : DB) (slug ver locale marker : String) : Prop :=
  ∃ t, lookupLeaf db slug ver locale = some t ∧ t.LastModified = marker

/-- Within one cycle the marker seen for a leaf is a function of the leaf:
two translation sets visited under the same project slug, version slug and
wp_locale carry the same `last_modified`. -/
def ConsistentMarkers (E : Env) : Prop :=
  ∀ a ∈ observedLeaves E, ∀ b ∈ observedLeaves E,
    a.1 = b.1 → a.2.1 = b.2.1 → a.2.2.WPLocale = b.2.2.WPLocale →
      a.2.2.LastModified = b.2.2.LastModified

/-- The marker a cycle sees for a leaf: that of the first visit of the leaf,
the empty string for a leaf that is not visited. -/
def markerOf (E : Env) (slug ver locale : String) : String :=
  match (observedLeaves E).find? fun a =>
      decide (a.1 = slug ∧ a.2.1 = ver ∧ a.2.2.WPLocale = locale) with
  | some a => a.2.2.LastModified
  | none => ""

/-- Relation between the index before and after a stretch of a cycle in
which every visited leaf carries the marker `mk` gives for it: a leaf that
held that marker still holds it, and no level of the index has gone. -/
def Evolves (mk : String → String → String → String) (db1 db2 : DB) : Prop :=
  (∀ s v l, SyncedAt db1 s v l (mk s v l) → SyncedAt db2 s v l (mk s v l)) ∧
    (∀ s, mapGet db1 s ≠ none → mapGet db2 s ≠ none) ∧
    (∀ s v, lookupVer db1 s v ≠ none → lookupVer db2 s v ≠ none)

/-- Nothing is left to do for the version `pv` of the extension `pSlug`:
its fetch returns, and when it returns a project the version level exists and
every translation set of it is in the index under its marker. -/
def SettledVersion (E : Env) (db : DB) (pSlug : String) (pv : SubProject) : Prop :=
  match fetchProject E pv.Path with
  | .ret (some v, none) =>
    lookupVer db pSlug pv.Slug ≠ none ∧
      ∀ ts ∈ v.TranslationSets, SyncedAt db pSlug pv.Slug ts.WPLocale ts.LastModified
  | .ret (_, some _) => True
  | _ => False

/-- Nothing is left to do for the extension `p`. -/
def SettledProject (E : Env) (db : DB) (p : SubProject) : Prop :=
  mapGet db p.Slug ≠ none ∧
    match fetchProject E p.Path with
    | .ret (some fp, none) => ∀ pv ∈ fp.SubProjects, SettledVersion E db p.Slug pv
    | .ret (_, some _) => True
    | _ => False

/-- The property `P` holds of every translation set the version `pv` of the
extension `pSlug` yields. -/
def HoldsVersion (P : String → String → TranslationSet → Prop) (E : Env) (pSlug : String)
    (pv : SubProject) : Prop :=
  ∀ v, fetchProject E pv.Path = .ret (some v, none) →
    ∀ ts ∈ v.TranslationSets, P pSlug pv.Slug ts

/-- The property `P` holds of every translation set under the extension `p`. -/
def HoldsProject (P : String → String → TranslationSet → Prop) (E : Env) (p : SubProject) :
    Prop :=
  ∀ fp, fetchProject E p.Path = .ret (some fp, none) →
    ∀ pv ∈ fp.SubProjects, HoldsVersion P E p.Slug pv

/-- The property `P` holds of every translation set a cycle visits. -/
def HoldsCycle (P : String → String → TranslationSet → Prop) (E : Env) : Prop :=
  ∀ wc, fetchProject E "woocommerce" = .ret (some wc, none) →
    ∀ p ∈ wc.SubProjects, HoldsProject P E p

/-- Every translation set the version `pv` yields carries the marker `mk`
gives for its leaf. -/
def AgreeVersion (mk : String → String → String → String) (E : Env) (pSlug : String)
    (pv : SubProject) : Prop :=
  HoldsVersion (fun s v ts => ts.LastModified = mk s v ts.WPLocale) E pSlug pv

/-- Every version of the extension `p` agrees with `mk`. -/
def AgreeProject (mk : String → String → String → String) (E : Env) (p : SubProject) :
    Prop :=
  HoldsProject (fun s v ts => ts.LastModified = mk s v ts.WPLocale) E p

/-- Every extension under the root agrees with `mk`. -/
def AgreeCycle (mk : String → String → String → String) (E : Env) : Prop :=
  HoldsCycle (fun s v ts => ts.LastModified = mk s v ts.WPLocale) E

/-- The leaf is as the cycle found it: same entry, no build made for it. -/
def LeafPending (slug ver locale : String) (st0 st : PollState) : Prop :=
  lookupLeaf st.db slug ver locale = lookupLeaf st0.db slug ver locale ∧
    buildsFor slug ver locale st.builds = buildsFor slug ver locale st0.builds

/-- The leaf has been rebuilt once since the cycle began: one call was made
for it, that call returned a reference, and the entry is the whole new record
with the marker `marker` and that reference. -/
def LeafDone (E : Env) (slug ver locale marker : String) (st0 st : PollState) : Prop :=
  ∃ path pkg, (buildPackageZip E path locale).out = .ret pkg ∧
    buildsFor slug ver locale st.builds =
      buildsFor slug ver locale st0.builds ++ [⟨slug, ver, path, locale⟩] ∧
    lookupLeaf st.db slug ver locale =
      some ⟨locale, marker, GetLocaleProp E locale "EnglishName",
        GetLocaleProp E locale "NativeName", pkg⟩

/-! ## Facts about the string routines -/

/-- The path routines give the results Go's own tests list. -/
theorem filepath_model_vectors :
    (goCleanVectors.all fun t => filepathClean t.1 == t.2) = true ∧
      (goJoinVectors.all fun t => filepathJoin t.1 == t.2) = true := by
  refine ⟨by decide, by decide⟩

theorem stripChars_append (p s : List Char) : stripChars p (p ++ s) = some s := by
  induction p with
  | nil => cases s <;> rfl
  | cons c cs ih => simp [stripChars, ih]

theorem splitChars_ne_nil (sep : Char) (s : List Char) : splitChars sep s ≠ [] := by
  cases s with
  | nil => simp [splitChars]
  | cons c cs =>
    unfold splitChars
    split
    · simp
    · split <;> simp

theorem splitChars_of_not_mem (sep : Char) (s : List Char) (h : sep ∉ s) :
    splitChars sep s = [s] := by
  induction s with
  | nil => rfl
  | cons c cs ih =>
    have hc : c ≠ sep := fun e => h (by simp [e])
    have hcs : sep ∉ cs := fun e => h (by simp [e])
    simp [splitChars, hc, ih hcs]

theorem splitChars_append (sep : Char) (a b : List Char) :
    splitChars sep (a ++ sep :: b) = splitChars sep a ++ splitChars sep b := by
  induction a with
  | nil => simp [splitChars]
  | cons c cs ih =>
    by_cases hc : c = sep
    · simp [splitChars, hc, ← ih]
    · cases hs : splitChars sep cs with
      | nil => exact absurd hs (splitChars_ne_nil sep cs)
      | cons h t => simp [splitChars, hc, ih, hs]

theorem slashJoin_snoc (L : List (List Char)) (c : List Char) (hL : L ≠ []) :
    slashJoin (L ++ [c]) = slashJoin L ++ '/' :: c := by
  induction L with
  | nil => exact absurd rfl hL
  | cons x xs ih =>
    cases xs with
    | nil => simp [slashJoin]
    | cons y ys =>
      have := ih (by simp)
      simp only [List.cons_append] at this ⊢
      simp [slashJoin, this]

theorem cleanStep_plain (r : Bool) (S : List (List Char)) (c : List Char)
    (h0 : c ≠ []) (h1 : c ≠ ['.']) (h2 : c ≠ ['.', '.']) :
    cleanStep r S c = c :: S := by
  simp [cleanStep, h0, h1, h2]

theorem foldl_cleanStep_snoc (r : Bool) (xs : List (List Char)) (c : List Char)
    (h0 : c ≠ []) (h1 : c ≠ ['.']) (h2 : c ≠ ['.', '.']) :
    (xs ++ [c]).foldl (cleanStep r) [] = c :: xs.foldl (cleanStep r) [] := by
  rw [List.foldl_append]
  simp [cleanStep_plain r _ c h0 h1 h2]

theorem cleanChars_of_ne_nil (p : List Char) (hp : p ≠ []) :
    cleanChars p =
      if (p.head? == some '/') = true then
        '/' :: slashJoin ((splitChars '/' p).foldl (cleanStep (p.head? == some '/')) []).reverse
      else if slashJoin ((splitChars '/' p).foldl (cleanStep (p.head? == some '/')) []).reverse = []
      then ['.']
      else slashJoin ((splitChars '/' p).foldl (cleanStep (p.head? == some '/')) []).reverse := by
  simp only [cleanChars, if_neg hp]

/-- Appending a plain element to a clean directory path gives a path that
`filepath.Clean` leaves alone. -/
theorem cleanChars_snoc (d c : List Char) (hd : cleanChars d = d) (hroot : d ≠ ['/'])
    (hdot : d ≠ ['.']) (h0 : c ≠ []) (hs : '/' ∉ c) (h1 : c ≠ ['.'])
    (h2 : c ≠ ['.', '.']) :
    cleanChars (d ++ '/' :: c) = d ++ '/' :: c := by
  have hne : d ≠ [] := by
    intro h
    rw [h] at hd
    simp [cleanChars] at hd
  have hne2 : d ++ '/' :: c ≠ [] := by simp
  have hhead : (d ++ '/' :: c).head? = d.head? := by
    cases d with
    | nil => exact absurd rfl hne
    | cons x xs => rfl
  have hsplit : splitChars '/' (d ++ '/' :: c) = splitChars '/' d ++ [c] := by
    rw [splitChars_append, splitChars_of_not_mem '/' c hs]
  rw [cleanChars_of_ne_nil d hne] at hd
  rw [cleanChars_of_ne_nil _ hne2, hhead, hsplit,
    foldl_cleanStep_snoc _ _ c h0 h1 h2, List.reverse_cons]
  generalize (List.foldl (cleanStep (d.head? == some '/')) [] (splitChars '/' d)).reverse = S
    at hd ⊢
  have hSne : S ≠ [] := by
    intro h
    rw [h] at hd
    by_cases hr : (d.head? == some '/') = true
    · simp [hr, slashJoin] at hd
      exact hroot hd.symm
    · simp [hr, slashJoin] at hd
      exact hdot hd.symm
  rw [slashJoin_snoc S c hSne]
  by_cases hr : (d.head? == some '/') = true
  · rw [if_pos hr] at hd ⊢
    rw [← List.cons_append, hd]
  · rw [if_neg hr] at hd ⊢
    have hb : slashJoin S ≠ [] := by
      intro h
      rw [h] at hd
      simp at hd
      exact hdot hd.symm
    have hb2 : slashJoin S ++ '/' :: c ≠ [] := by simp
    rw [if_neg hb] at hd
    rw [if_neg hb2, hd]

/-- A plain element is its own cleaned form. -/
theorem cleanChars_plain (c : List Char) (h0 : c ≠ []) (hs : '/' ∉ c)
    (h1 : c ≠ ['.']) (h2 : c ≠ ['.', '.']) : cleanChars c = c := by
  have hhead : (c.head? == some '/') = false := by
    cases c with
    | nil => exact absurd rfl h0
    | cons x xs =>
      have : x ≠ '/' := fun e => hs (by simp [e])
      simp [this]
  unfold cleanChars
  rw [if_neg h0, splitChars_of_not_mem '/' c hs]
  simp [hhead, cleanStep_plain _ _ c h0 h1 h2, slashJoin, h0]

/-! ## The builder on a well-formed path -/

theorem trimPrefixStr_root (e v : String) :
    trimPrefixStr ("woocommerce/" ++ e ++ "/" ++ v) "woocommerce/" = e ++ "/" ++ v := by
  have h : ("woocommerce/" ++ e ++ "/" ++ v).data =
      "woocommerce/".data ++ (e ++ "/" ++ v).data := by
    simp [String.data_append, List.append_assoc]
  unfold trimPrefixStr
  rw [h, stripChars_append]

theorem splitSlash_pair (e v : String) (he : '/' ∉ e.data) (hv : '/' ∉ v.data) :
    splitSlash (e ++ "/" ++ v) = [e, v] := by
  have h : (e ++ "/" ++ v).data = e.data ++ '/' :: v.data := by
    simp [String.data_append, List.append_assoc]
  unfold splitSlash
  rw [h, splitChars_append, splitChars_of_not_mem _ _ he, splitChars_of_not_mem _ _ hv]
  rfl

theorem plainSeg_chars {s : String} (h : PlainSeg s) :
    s.data ≠ [] ∧ '/' ∉ s.data ∧ s.data ≠ ['.'] ∧ s.data ≠ ['.', '.'] := by
  obtain ⟨h0, hs, h1, h2⟩ := h
  refine ⟨fun e => h0 (String.ext e), hs, fun e => h1 (String.ext e),
    fun e => h2 (String.ext e)⟩

theorem cleanDir_chars {d : String} (h : CleanDir d) :
    cleanChars d.data = d.data ∧ d.data ≠ ['/'] ∧ d.data ≠ ['.'] := by
  obtain ⟨hc, hr, hd⟩ := h
  refine ⟨?_, fun e => hr (String.ext e), fun e => hd (String.ext e)⟩
  have := congrArg String.data hc
  simpa [filepathClean] using this

/-- A clean directory joined with a plain element is the two with a `/`
between them, and is again a clean directory. -/
theorem filepathJoin_plain (d c : String) (hd : CleanDir d) (hc : PlainSeg c) :
    filepathJoin [d, c] = d ++ "/" ++ c ∧ CleanDir (d ++ "/" ++ c) := by
  obtain ⟨hd1, hd2, hd3⟩ := cleanDir_chars hd
  obtain ⟨hc0, hcs, hc1, hc2⟩ := plainSeg_chars hc
  have hne : d.data ≠ [] := by
    intro h
    rw [h] at hd1
    simp [cleanChars] at hd1
  have hdata : (d ++ "/" ++ c).data = d.data ++ '/' :: c.data := by
    simp [String.data_append, List.append_assoc]
  have hclean := cleanChars_snoc d.data c.data hd1 hd2 hd3 hc0 hcs hc1 hc2
  refine ⟨?_, ?_, ?_, ?_⟩
  · apply String.ext
    simp only [filepathJoin, List.map, joinChars, if_neg hne, slashJoin, hclean, hdata]
  · apply String.ext
    simp only [filepathClean, hdata, hclean]
  · intro h
    have := congrArg String.data h
    rw [hdata] at this
    have hlen := congrArg List.length this
    simp only [List.length_append, List.length_cons, String.data, List.length_nil] at hlen
    have hlen2 : ("/" : String).data.length = 1 ∧ ("." : String).data.length = 1 :=
      ⟨rfl, rfl⟩
    exact hne (List.eq_nil_of_length_eq_zero (by omega))
  · intro h
    have := congrArg String.data h
    rw [hdata] at this
    have hlen := congrArg List.length this
    simp only [List.length_append, List.length_cons, String.data, List.length_nil] at hlen
    have hlen2 : ("/" : String).data.length = 1 ∧ ("." : String).data.length = 1 :=
      ⟨rfl, rfl⟩
    exact hne (List.eq_nil_of_length_eq_zero (by omega))

theorem plainSeg_clean {c : String} (hc : PlainSeg c) : CleanDir c := by
  obtain ⟨hc0, hcs, hc1, hc2⟩ := plainSeg_chars hc
  refine ⟨?_, ?_, hc.2.2.1⟩
  · apply String.ext
    simp only [filepathClean, cleanChars_plain c.data hc0 hcs hc1 hc2]
  · intro h
    rw [h] at hcs
    exact hcs (by decide)

/-- The archive name is a plain path element when the slugs and the locale
have no `/`. -/
theorem lpName_plain (e v l : String) (he : '/' ∉ e.data) (hv : '/' ∉ v.data)
    (hl : '/' ∉ l.data) : PlainSeg (e ++ "-" ++ v ++ "-" ++ l ++ ".zip") := by
  have hdata : (e ++ "-" ++ v ++ "-" ++ l ++ ".zip").data =
      e.data ++ '-' :: (v.data ++ '-' :: (l.data ++ ['.', 'z', 'i', 'p'])) := by
    simp [String.data_append, List.append_assoc]
  have hmem : '-' ∈ (e ++ "-" ++ v ++ "-" ++ l ++ ".zip").data := by
    rw [hdata]
    simp
  refine ⟨?_, ?_, ?_, ?_⟩
  · intro h
    rw [h] at hmem
    exact absurd hmem (by decide)
  · rw [hdata]
    simp only [List.mem_append, List.mem_cons, not_or]
    refine ⟨he, by decide, hv, by decide, hl, ?_⟩
    decide
  · intro h
    rw [h] at hmem
    exact absurd hmem (by decide)
  · intro h
    rw [h] at hmem
    exact absurd hmem (by decide)

/-- The path of a version with plain slugs is its own cleaned form. -/
theorem filepathClean_pair (e v : String) (he : PlainSeg e) (hv : PlainSeg v) :
    filepathClean (e ++ "/" ++ v) = e ++ "/" ++ v :=
  (filepathJoin_plain e v (plainSeg_clean he) hv).2.1

/-- Shape of a fully successful run of the builder on a two-element path. -/
theorem buildPackageZip_success (E : Env) (e v l : String) (hE : E.AllStepsSucceed)
    (he : '/' ∉ e.data) (hv : '/' ∉ v.data) :
    buildPackageZip E ("woocommerce/" ++ e ++ "/" ++ v) l =
      let path := e ++ "/" ++ v
      let lpName := e ++ "-" ++ v ++ "-" ++ l ++ ".zip"
      let pomoDir := filepathJoin [E.tempDir, filepathClean path, l]
      let exportURL := E.gpURL ++ "/" ++ path ++ "/" ++ l
      let po := filepathJoin [pomoDir, e ++ "-" ++ l ++ ".po"]
      let mo := filepathJoin [pomoDir, e ++ "-" ++ l ++ ".mo"]
      let lpDir := filepathJoin [E.downloadsPath, filepathClean path]
      ⟨[.mkdirAll pomoDir, .download (exportURL ++ "?format=po") po,
        .download (exportURL ++ "?format=mo") mo, .mkdirAll lpDir,
        .zip pomoDir (filepathJoin [lpDir, lpName]),
        .remove mo, .remove po, .removeAll pomoDir],
       .ret ("/downloads/" ++ path ++ "/" ++ lpName)⟩ := by
  obtain ⟨h1, h2, h3⟩ := hE
  simp only [buildPackageZip, trimPrefixStr_root, splitSlash_pair e v he hv, h1, h2, h3,
    getPackageURL]

/-- C5 (as amended). When every file-system and network step succeeds, for
slugs `e`, `v` without `/` and any locale `l`, `buildPackageZip` on
`woocommerce/e/v` returns exactly `/downloads/e/v/e-v-l.zip`, a value fixed
by the path and the locale that starts with `/downloads/` and ends with
`.zip`; and when moreover `e` and `v` are non-empty and neither `.` nor `..`,
`l` has no `/`, and the downloads path is a cleaned directory path other than
`/` and `.`, the one archive it writes is `<downloadsPath>/e/v/e-v-l.zip`. -/
theorem C5_buildPackageZip_reference_and_archive (E : Env) (e v l : String)
    (hE : E.AllStepsSucceed) (he : '/' ∉ e.data) (hv : '/' ∉ v.data) :
    (buildPackageZip E ("woocommerce/" ++ e ++ "/" ++ v) l).out =
        .ret ("/downloads/" ++ e ++ "/" ++ v ++ "/" ++ e ++ "-" ++ v ++ "-" ++ l ++ ".zip") ∧
      "/downloads/".data <+:
        ("/downloads/" ++ e ++ "/" ++ v ++ "/" ++ e ++ "-" ++ v ++ "-" ++ l ++ ".zip").data ∧
      ".zip".data <:+
        ("/downloads/" ++ e ++ "/" ++ v ++ "/" ++ e ++ "-" ++ v ++ "-" ++ l ++ ".zip").data ∧
      (PlainSeg e → PlainSeg v → '/' ∉ l.data → CleanDir E.downloadsPath →
        (∃ src, FsEvent.zip src
            (E.downloadsPath ++ "/" ++ e ++ "/" ++ v ++ "/" ++ e ++ "-" ++ v ++ "-" ++ l ++
              ".zip") ∈ (buildPackageZip E ("woocommerce/" ++ e ++ "/" ++ v) l).events) ∧
          ∀ src dst,
            FsEvent.zip src dst ∈ (buildPackageZip E ("woocommerce/" ++ e ++ "/" ++ v) l).events →
            dst = E.downloadsPath ++ "/" ++ e ++ "/" ++ v ++ "/" ++ e ++ "-" ++ v ++ "-" ++ l ++
              ".zip") := by
  rw [buildPackageZip_success E e v l hE he hv]
  refine ⟨?_, ?_, ?_, ?_⟩
  · simp only [String.append_assoc]
  · simp only [String.data_append, List.append_assoc]
    exact List.prefix_append _ _
  · simp only [String.data_append]
    exact List.suffix_append _ _
  · intro pe pv hl hd
    have hdir1 := filepathJoin_plain E.downloadsPath e hd pe
    have hdir2 := filepathJoin_plain (E.downloadsPath ++ "/" ++ e) v hdir1.2 pv
    have hdir3 := filepathJoin_plain (E.downloadsPath ++ "/" ++ e ++ "/" ++ v)
      (e ++ "-" ++ v ++ "-" ++ l ++ ".zip") hdir2.2 (lpName_plain e v l he hv hl)
    have hlp : filepathJoin [E.downloadsPath, filepathClean (e ++ "/" ++ v)] =
        E.downloadsPath ++ "/" ++ e ++ "/" ++ v := by
      rw [filepathClean_pair e v pe pv, ← hdir2.1]
      apply String.ext
      obtain ⟨hd1, -, -⟩ := cleanDir_chars hd
      have hne : E.downloadsPath.data ≠ [] := by
        intro h
        rw [h] at hd1
        simp [cleanChars] at hd1
      have hne2 : (E.downloadsPath ++ "/" ++ e).data ≠ [] := by
        simp [String.data_append, hne]
      simp only [filepathJoin, List.map, joinChars, if_neg hne, if_neg hne2, slashJoin]
      simp [String.data_append, List.append_assoc]
    have hzip : filepathJoin [filepathJoin [E.downloadsPath, filepathClean (e ++ "/" ++ v)],
        e ++ "-" ++ v ++ "-" ++ l ++ ".zip"] =
        E.downloadsPath ++ "/" ++ e ++ "/" ++ v ++ "/" ++ e ++ "-" ++ v ++ "-" ++ l ++
          ".zip" := by
      rw [hlp, hdir3.1]
      simp only [String.append_assoc]
    simp only [hzip]
    refine ⟨⟨filepathJoin [E.tempDir, filepathClean (e ++ "/" ++ v), l], by simp⟩, ?_⟩
    intro src dst hmem
    simp at hmem
    exact hmem.2

/-- C5, an instance: the scenario of the specification in a world where
every step succeeds and the downloads path is `/srv/downloads`. -/
theorem C5_buildPackageZip_reference_and_archive_witness :
    okEnv.AllStepsSucceed ∧ '/' ∉ "woocommerce-bookings".data ∧ '/' ∉ "stable".data ∧
      PlainSeg "woocommerce-bookings" ∧ PlainSeg "stable" ∧ '/' ∉ "es_ES".data ∧
      CleanDir okEnv.downloadsPath ∧
      (buildPackageZip okEnv ("woocommerce/" ++ "woocommerce-bookings" ++ "/" ++ "stable")
          "es_ES").out =
        .ret ("/downloads/" ++ "woocommerce-bookings" ++ "/" ++ "stable" ++ "/" ++
          "woocommerce-bookings" ++ "-" ++ "stable" ++ "-" ++ "es_ES" ++ ".zip") ∧
      ∃ src, FsEvent.zip src
          (okEnv.downloadsPath ++ "/" ++ "woocommerce-bookings" ++ "/" ++ "stable" ++ "/" ++
            "woocommerce-bookings" ++ "-" ++ "stable" ++ "-" ++ "es_ES" ++ ".zip") ∈
        (buildPackageZip okEnv ("woocommerce/" ++ "woocommerce-bookings" ++ "/" ++ "stable")
          "es_ES").events :=
  have hE : okEnv.AllStepsSucceed := ⟨fun _ => rfl, fun _ _ => rfl, fun _ _ => rfl⟩
  have pe : PlainSeg "woocommerce-bookings" := ⟨by decide, by decide, by decide, by decide⟩
  have pv : PlainSeg "stable" := ⟨by decide, by decide, by decide, by decide⟩
  have hd : CleanDir okEnv.downloadsPath := ⟨by decide, by decide, by decide⟩
  have main := C5_buildPackageZip_reference_and_archive okEnv "woocommerce-bookings" "stable"
    "es_ES" hE (by decide) (by decide)
  ⟨hE, by decide, by decide, pe, pv, by decide, hd, main.1,
    (main.2.2.2 pe pv (by decide) hd).1⟩

/-- C5 as stated fails for the place of the archive. With every step
succeeding and slugs without `/`: the locale `x/../es` makes the builder
write `/srv/downloads/woocommerce-bookings/stable/es.zip`, an archive not
named `e-v-l.zip`; the extension slug `..` makes it write under `/srv/stable`,
the slug `.` under `/srv/downloads/stable`; and with the downloads path
`/srv/downloads/` the archive path has one `/` where the stated path has
two. In each case the path differs from `<downloadsPath>/e/v/e-v-l.zip`. -/
theorem C5_counterexample_archive_location :
    okEnv.AllStepsSucceed ∧ slashEnv.AllStepsSucceed ∧
      '/' ∉ "woocommerce-bookings".data ∧ '/' ∉ "stable".data ∧ '/' ∉ "..".data ∧
      '/' ∉ ".".data ∧
      zipEvents (buildPackageZip okEnv
          ("woocommerce/" ++ "woocommerce-bookings" ++ "/" ++ "stable") "x/../es") =
        [.zip "/tmp/woocommerce-bookings/stable/es"
          "/srv/downloads/woocommerce-bookings/stable/es.zip"] ∧
      "/srv/downloads/woocommerce-bookings/stable/es.zip" ≠
        okEnv.downloadsPath ++ "/" ++ "woocommerce-bookings" ++ "/" ++ "stable" ++ "/" ++
          "woocommerce-bookings" ++ "-" ++ "stable" ++ "-" ++ "x/../es" ++ ".zip" ∧
      zipEvents (buildPackageZip okEnv ("woocommerce/" ++ ".." ++ "/" ++ "stable") "es") =
        [.zip "/stable/es" "/srv/stable/..-stable-es.zip"] ∧
      "/srv/stable/..-stable-es.zip" ≠
        okEnv.downloadsPath ++ "/" ++ ".." ++ "/" ++ "stable" ++ "/" ++
          ".." ++ "-" ++ "stable" ++ "-" ++ "es" ++ ".zip" ∧
      zipEvents (buildPackageZip okEnv ("woocommerce/" ++ "." ++ "/" ++ "stable") "es") =
        [.zip "/tmp/stable/es" "/srv/downloads/stable/.-stable-es.zip"] ∧
      "/srv/downloads/stable/.-stable-es.zip" ≠
        okEnv.downloadsPath ++ "/" ++ "." ++ "/" ++ "stable" ++ "/" ++
          "." ++ "-" ++ "stable" ++ "-" ++ "es" ++ ".zip" ∧
      zipEvents (buildPackageZip slashEnv
          ("woocommerce/" ++ "woocommerce-bookings" ++ "/" ++ "stable") "es") =
        [.zip "/tmp/woocommerce-bookings/stable/es"
          "/srv/downloads/woocommerce-bookings/stable/woocommerce-bookings-stable-es.zip"] ∧
      "/srv/downloads/woocommerce-bookings/stable/woocommerce-bookings-stable-es.zip" ≠
        slashEnv.downloadsPath ++ "/" ++ "woocommerce-bookings" ++ "/" ++ "stable" ++ "/" ++
          "woocommerce-bookings" ++ "-" ++ "stable" ++ "-" ++ "es" ++ ".zip" := by
  refine ⟨⟨fun _ => rfl, fun _ _ => rfl, fun _ _ => rfl⟩,
    ⟨fun _ => rfl, fun _ _ => rfl, fun _ _ => rfl⟩, by decide, by decide, by decide,
    by decide, by decide, by decide, by decide, by decide, by decide, by decide, by decide,
    by decide⟩

/-- C6. On a path whose trimmed form has a single element the builder
faults on `parts[1]` before any file-system or network call, instead of
returning the empty reference; shown for the path of an extension without a
version and for the empty path, in every world and for every locale. -/
theorem C6_buildPackageZip_malformed_path_faults (E : Env) (locale : String) :
    buildPackageZip E "woocommerce/woocommerce-bookings" locale =
        ⟨[], .fault "index out of range [1] with length 1"⟩ ∧
      buildPackageZip E "" locale = ⟨[], .fault "index out of range [1] with length 1"⟩ ∧
      (splitSlash (trimPrefixStr "woocommerce/woocommerce-bookings" "woocommerce/")).length = 1 ∧
      (splitSlash (trimPrefixStr "" "woocommerce/")).length = 1 := by
  refine ⟨rfl, rfl, by decide, by decide⟩

/-! ## General facts behind the faults -/

/-- A trimmed path with fewer than two elements makes the builder fault
before it does anything. -/
theorem buildPackageZip_short_path (E : Env) (path locale : String)
    (h : (splitSlash (trimPrefixStr path "woocommerce/")).length < 2) :
    buildPackageZip E path locale = ⟨[], .fault "index out of range [1] with length 1"⟩ := by
  rcases hs : splitSlash (trimPrefixStr path "woocommerce/") with _ | ⟨p0, _ | ⟨p1, rest⟩⟩
  · simp only [buildPackageZip, hs]
  · simp only [buildPackageZip, hs]
  · rw [hs] at h
    simp only [List.length_cons] at h
    omega

/-- On a path with two elements or more the builder returns: the empty
reference, or the reference made of the trimmed path and the archive name. -/
theorem buildPackageZip_ret_cases (E : Env) (path locale p0 p1 : String)
    (rest : List String)
    (hs : splitSlash (trimPrefixStr path "woocommerce/") = p0 :: p1 :: rest) :
    (buildPackageZip E path locale).out = .ret "" ∨
      (buildPackageZip E path locale).out =
        .ret (getPackageURL (trimPrefixStr path "woocommerce/")
          (p0 ++ "-" ++ p1 ++ "-" ++ locale ++ ".zip")) := by
  simp only [buildPackageZip, hs]
  split
  · exact Or.inl rfl
  · split
    · exact Or.inl rfl
    · split
      · exact Or.inl rfl
      · split
        · exact Or.inl rfl
        · split
          · exact Or.inl rfl
          · exact Or.inr rfl

/-- When `http.Get` fails for the `.po` export of the locale, the builder
returns the empty reference. -/
theorem buildPackageZip_po_unreachable (E : Env) (path locale p0 p1 e : String)
    (rest : List String) (resp : Option String)
    (hs : splitSlash (trimPrefixStr path "woocommerce/") = p0 :: p1 :: rest)
    (hget : E.httpGet (E.gpURL ++ "/" ++ trimPrefixStr path "woocommerce/" ++ "/" ++ locale ++
      "?format=po") = .error e resp) :
    (buildPackageZip E path locale).out = .ret "" := by
  simp only [buildPackageZip, hs, downloadTranslation, hget]
  split <;> rfl

/-- A value that is not an object makes the decoder fault. -/
theorem UnmarshalJSON_not_object (jsonUnmarshal : String → Except String JValue)
    (now data : String) (ts : TranslationSet) (v : JValue)
    (hparse : jsonUnmarshal data = .ok v) (hv : ∀ m, v ≠ .obj m) :
    TranslationSet.UnmarshalJSON jsonUnmarshal now ts data =
      .fault "interface conversion: interface {} is not map[string]interface {}" := by
  unfold TranslationSet.UnmarshalJSON
  rw [hparse]
  cases v with
  | obj m => exact absurd rfl (hv m)
  | _ => rfl

/-- An object with a non-string under `name`, `locale` or `wp_locale` makes
the decoder fault, wherever the entry sits in the map. -/
theorem unmarshalFields_non_string (now : String) (m : List (String × JValue)) :
    ∀ (ts : TranslationSet) (k : String) (v : JValue), (k, v) ∈ m →
      (k = "name" ∨ k = "locale" ∨ k = "wp_locale") → (∀ s, v ≠ .str s) →
      ∃ msg, unmarshalFields now ts m = .fault msg := by
  induction m with
  | nil => intro ts k v hmem; simp at hmem
  | cons kv rest ih =>
    intro ts k v hmem hk hv
    obtain ⟨k0, v0⟩ := kv
    simp only [unmarshalFields]
    cases hstep : unmarshalField now ts k0 v0 with
    | fault msg => exact ⟨msg, rfl⟩
    | ret ts1 =>
      rcases List.mem_cons.mp hmem with heq | hrest
      · exfalso
        cases heq
        unfold unmarshalField at hstep
        rcases hk with rfl | rfl | rfl
        · cases v with
          | str s => exact hv s rfl
          | _ => simp at hstep
        · cases v with
          | str s => exact hv s rfl
          | _ => simp at hstep
        · cases v with
          | str s => exact hv s rfl
          | _ => simp at hstep
      · exact ih ts1 k v hrest hk hv

/-- The decoder leaves `LastModified` alone unless the map has the key
`last_modfified`. -/
theorem unmarshalFields_keeps_marker (now : String) (m : List (String × JValue)) :
    ∀ (ts ts1 : TranslationSet), (∀ kv ∈ m, kv.1 ≠ "last_modfified") →
      unmarshalFields now ts m = .ret ts1 → ts1.LastModified = ts.LastModified := by
  induction m with
  | nil =>
    intro ts ts1 _ h
    simp only [unmarshalFields, Run.ret.injEq] at h
    rw [h]
  | cons kv rest ih =>
    intro ts ts1 hkeys h
    obtain ⟨k0, v0⟩ := kv
    simp only [unmarshalFields] at h
    have hk0 : k0 ≠ "last_modfified" := hkeys (k0, v0) (by simp)
    cases hstep : unmarshalField now ts k0 v0 with
    | fault msg => simp [hstep] at h
    | ret ts2 =>
      rw [hstep] at h
      have h2 := ih ts2 ts1 (fun kv hkv => hkeys kv (by simp [hkv])) h
      rw [h2]
      unfold unmarshalField at hstep
      simp only [hk0, if_false] at hstep
      split at hstep
      · split at hstep <;> simp at hstep
        rw [← hstep]
      · split at hstep
        · split at hstep <;> simp at hstep
          rw [← hstep]
        · split at hstep
          · split at hstep <;> simp at hstep
            rw [← hstep]
          · simp at hstep
            rw [hstep]

/-- A nil response from `http.Get` makes `fetchProject` fault, whatever the
error beside it. -/
theorem fetchProject_nil_response (E : Env) (path : String)
    (e : String) (h : E.httpGet (getApiURL E path) = .error e none) :
    fetchProject E path = .fault "invalid memory address or nil pointer dereference" := by
  simp [fetchProject, h]

/-! ## Decoding, fetching and the query handler at the inputs of the claims -/

/-- C4. The decoder never reads the field `last_modified`: its `case` is
spelled `last_modfified`. For the object of the scenario with any string `s`
as `last_modified` the call succeeds and `LastModified` stays empty, not
`s`; with `false` as the value it stays empty as well, not a timestamp. -/
theorem C4_UnmarshalJSON_drops_last_modified (now s data : String) :
    TranslationSet.UnmarshalJSON
        (fun _ => .ok (.obj [("locale", .str "es"), ("wp_locale", .str "es_ES"),
          ("last_modified", .str s)])) now TranslationSet.zero data =
      .ret (⟨"", "es", "es_ES", ""⟩, none) ∧
    TranslationSet.UnmarshalJSON
        (fun _ => .ok (.obj [("name", .str "Spanish"), ("locale", .str "es"),
          ("wp_locale", .str "es_ES"), ("last_modified", .bool false)])) now
        TranslationSet.zero data =
      .ret (⟨"Spanish", "es", "es_ES", ""⟩, none) ∧
    TranslationSet.UnmarshalJSON
        (fun _ => .ok (.obj [("locale", .str "es"), ("wp_locale", .str "es_ES"),
          ("last_modfified", .str s)])) now TranslationSet.zero data =
      .ret (⟨"", "es", "es_ES", s⟩, none) := by
  refine ⟨rfl, rfl, rfl⟩

/-- C10. On JSON that is valid but not of the expected shape the decoder
faults on a type assertion instead of returning an error: an array, `null`,
a number for `name`, `null` for `locale`, a boolean for `wp_locale`. -/
theorem C10_UnmarshalJSON_schema_mismatch_faults (now data : String)
    (ts : TranslationSet) :
    TranslationSet.UnmarshalJSON (fun _ => .ok (.arr [])) now ts data =
      .fault "interface conversion: interface {} is not map[string]interface {}" ∧
    TranslationSet.UnmarshalJSON (fun _ => .ok .null) now ts data =
      .fault "interface conversion: interface {} is not map[string]interface {}" ∧
    TranslationSet.UnmarshalJSON (fun _ => .ok (.obj [("name", .num "1")])) now ts data =
      .fault "interface conversion: interface {} is not string" ∧
    TranslationSet.UnmarshalJSON (fun _ => .ok (.obj [("locale", .null)])) now ts data =
      .fault "interface conversion: interface {} is not string" ∧
    TranslationSet.UnmarshalJSON (fun _ => .ok (.obj [("wp_locale", .bool true)])) now ts
        data =
      .fault "interface conversion: interface {} is not string" := by
  refine ⟨rfl, rfl, rfl, rfl, rfl⟩

/-- C9. When `http.Get` gives a nil response and an error, `fetchProject`
faults on `resp.Body` in the `defer` statement and returns nothing, for
every path, every error text and every other part of the world; a cycle
started in such a world ends in that fault; and so does a cycle in which the
root is served and the fetch of the extension below it fails, from any
state: the subtree is not skipped. -/
theorem C9_fetchProject_transport_failure_faults (E : Env) (path e : String)
    (st : PollState) :
    fetchProject { E with httpGet := fun _ => .error e none } path =
      .fault "invalid memory address or nil pointer dereference" ∧
    poll { E with httpGet := fun _ => .error e none } st =
      .fault "invalid memory address or nil pointer dereference" ∧
    poll (scenarioEnv [esSet] belowRootFails) st =
      .fault "invalid memory address or nil pointer dereference" := by
  refine ⟨rfl, rfl, ?_⟩
  cases hs : mapGet st.db "woocommerce-bookings" <;>
    simp [poll, fetchProject, getApiURL, scenarioEnv, belowRootFails, forRange, pollProject]

theorem jsonError_status (wr : Payload → Option String) (code message : String)
    (w : Response) (hw : w.wroteHeader = false) :
    (jsonError wr code message w).status = statusOf code ∧
      (jsonError wr code message w).wroteHeader = true := by
  unfold jsonError Response.encode Response.writeHeader
  cases wr (.error code message) <;> simp [hw]

theorem encode_keeps_status (wr : Payload → Option String) (w : Response) (v : Payload)
    (hw : w.wroteHeader = true) :
    (w.encode wr v).1.status = w.status ∧ (w.encode wr v).1.wroteHeader = true := by
  unfold Response.encode Response.writeHeader
  cases wr v <;> simp [hw]

theorem jsonError_keeps_status (wr : Payload → Option String) (code message : String)
    (w : Response) (hw : w.wroteHeader = true) :
    (jsonError wr code message w).status = w.status := by
  unfold jsonError Response.encode Response.writeHeader
  cases wr (.error code message) <;> simp [hw]

/-- The response to a single-locale query that misses, in terms of the query
alone. -/
theorem handlePlugins_miss (wr : Payload → Option String) (db : DB) (q : Query)
    (hs : q.slug ≠ "") (hv : q.version ≠ "") (hl : q.locale ≠ "")
    (hmiss : lookupLeaf db q.slug q.version q.locale = none) :
    handlePlugins wr db q =
      match (jsonError wr "translation_does_not_exist"
          ("Translation " ++ q.locale ++ " for plugin " ++ q.slug ++ " version " ++
            q.version) ⟨false, 200, []⟩).encode wr (.single none) with
      | (w3, some e) => jsonError wr "error_json_encode" e w3
      | (w3, none) => w3 := by
  simp only [handlePlugins, if_neg hs, if_neg hv, if_neg hl, hmiss]
  rfl

/-- A listing request on a version that is in the index: the handler writes
the map and goes on to the single-locale lookup with the empty locale. When
no entry sits under the empty locale it then writes the not-found error
object and `null`; the status stays 200. -/
theorem handlePlugins_listing_falls_through (db : DB) (q : Query) (m : GoMap Translation)
    (hs : q.slug ≠ "") (hv : q.version ≠ "") (hl : q.locale = "")
    (hm : lookupVer db q.slug q.version = some m) (he : mapGet m "" = none) :
    handlePlugins okWriter db q =
      ⟨true, 200, [.listing m,
        .error "translation_does_not_exist"
          ("Translation " ++ q.locale ++ " for plugin " ++ q.slug ++ " version " ++ q.version),
        .single none]⟩ := by
  have hleaf : lookupLeaf db q.slug q.version "" = none := by
    simp [lookupLeaf, hm, he]
  simp [handlePlugins, hs, hv, hl, hm, Response.encode, Response.writeHeader, okWriter,
    jsonError, hleaf]

/-- C7 (as amended). For a query with non-empty slug, version and locale,
the three misses (slug absent from the index, slug present and version
absent, slug and version present and locale absent) get one and the same
response from `handlePlugins`, whatever the writer does: status 404 and,
when the error object can be written, the error object with code
`translation_does_not_exist` first, its message made of the query alone. -/
theorem C7_handlePlugins_misses_share_outcome (wr : Payload → Option String)
    (db1 db2 db3 : DB) (q : Query) (m2 : GoMap (GoMap Translation)) (m3 : GoMap Translation)
    (hs : q.slug ≠ "") (hv : q.version ≠ "") (hl : q.locale ≠ "")
    (h1 : mapGet db1 q.slug = none)
    (h2 : mapGet db2 q.slug = some m2) (h2v : mapGet m2 q.version = none)
    (h3 : lookupVer db3 q.slug q.version = some m3) (h3l : mapGet m3 q.locale = none) :
    handlePlugins wr db1 q = handlePlugins wr db2 q ∧
      handlePlugins wr db2 q = handlePlugins wr db3 q ∧
      (handlePlugins wr db1 q).status = 404 ∧
      (wr (.error "translation_does_not_exist"
          ("Translation " ++ q.locale ++ " for plugin " ++ q.slug ++ " version " ++
            q.version)) = none →
        (handlePlugins wr db1 q).body.head? =
          some (.error "translation_does_not_exist"
            ("Translation " ++ q.locale ++ " for plugin " ++ q.slug ++ " version " ++
              q.version))) := by
  have e1 : lookupLeaf db1 q.slug q.version q.locale = none := by
    simp [lookupLeaf, lookupVer, h1]
  have e2 : lookupLeaf db2 q.slug q.version q.locale = none := by
    simp [lookupLeaf, lookupVer, h2, h2v]
  have e3 : lookupLeaf db3 q.slug q.version q.locale = none := by
    simp [lookupLeaf, h3, h3l]
  rw [handlePlugins_miss wr db1 q hs hv hl e1, handlePlugins_miss wr db2 q hs hv hl e2,
    handlePlugins_miss wr db3 q hs hv hl e3]
  refine ⟨rfl, rfl, ?_, ?_⟩
  · have hj := jsonError_status wr "translation_does_not_exist"
      ("Translation " ++ q.locale ++ " for plugin " ++ q.slug ++ " version " ++ q.version)
      ⟨false, 200, []⟩ rfl
    have he := encode_keeps_status wr _ (.single none) hj.2
    rcases hres : Response.encode wr (jsonError wr "translation_does_not_exist"
      ("Translation " ++ q.locale ++ " for plugin " ++ q.slug ++ " version " ++ q.version)
      ⟨false, 200, []⟩) (.single none) with ⟨w3, _ | e⟩
    · simp only
      rw [hres] at he
      rw [he.1, hj.1]
      rfl
    · simp only
      rw [hres] at he
      rw [jsonError_keeps_status wr _ _ w3 he.2, he.1, hj.1]
      rfl
  · intro hwr
    simp only [jsonError, Response.encode, Response.writeHeader, hwr]
    cases wr (.single none) with
    | none => simp
    | some e =>
      simp only
      cases wr (.error "error_json_encode" e) <;> simp

/-- C7, an instance: an empty index, an index with the slug only, and an
index with slug and version only, asked for `es_ES`. -/
theorem C7_handlePlugins_misses_share_outcome_witness :
    handlePlugins okWriter [] ⟨"woocommerce-bookings", "stable", "es_ES"⟩ =
        handlePlugins okWriter [("woocommerce-bookings", [])]
          ⟨"woocommerce-bookings", "stable", "es_ES"⟩ ∧
      (handlePlugins okWriter [] ⟨"woocommerce-bookings", "stable", "es_ES"⟩).status = 404 :=
  have h := C7_handlePlugins_misses_share_outcome okWriter [] [("woocommerce-bookings", [])]
    [("woocommerce-bookings", [("stable", [])])] ⟨"woocommerce-bookings", "stable", "es_ES"⟩
    [] [] (by decide) (by decide) (by decide) rfl rfl rfl rfl rfl
  ⟨h.1, h.2.2.1⟩

/-- C7 as stated fails: asked for `es_ES` of `woocommerce-bookings`
`stable`, an index without the slug, one with the slug and without the
version, and one with both and without the locale all get status 404 and
the error code `translation_does_not_exist` with the same message; no two of
the three outcomes differ. -/
theorem C7_counterexample_same_error_code :
    handlePlugins okWriter [] ⟨"woocommerce-bookings", "stable", "es_ES"⟩ =
        ⟨true, 404, [.error "translation_does_not_exist"
          "Translation es_ES for plugin woocommerce-bookings version stable",
          .single none]⟩ ∧
      handlePlugins okWriter [("woocommerce-bookings", [])]
          ⟨"woocommerce-bookings", "stable", "es_ES"⟩ =
        ⟨true, 404, [.error "translation_does_not_exist"
          "Translation es_ES for plugin woocommerce-bookings version stable",
          .single none]⟩ ∧
      handlePlugins okWriter [("woocommerce-bookings", [("stable", [])])]
          ⟨"woocommerce-bookings", "stable", "es_ES"⟩ =
        ⟨true, 404, [.error "translation_does_not_exist"
          "Translation es_ES for plugin woocommerce-bookings version stable",
          .single none]⟩ := by
  refine ⟨by decide, by decide, by decide⟩

/-- C8. For a listing request on a version that is in the index the handler
writes the map and then, lacking a `return`, an error object and `null`;
for a single-locale request that misses it writes the error object and then
`null`. Neither response is a single JSON value. -/
theorem C8_handlePlugins_writes_more_than_one_value :
    handlePlugins okWriter esIndex ⟨"woocommerce-bookings", "stable", ""⟩ =
        ⟨true, 200, [.listing [("es_ES", esTranslation)],
          .error "translation_does_not_exist"
            "Translation  for plugin woocommerce-bookings version stable",
          .single none]⟩ ∧
      handlePlugins okWriter esIndex ⟨"woocommerce-bookings", "stable", "de_DE"⟩ =
        ⟨true, 404, [.error "translation_does_not_exist"
          "Translation de_DE for plugin woocommerce-bookings version stable",
          .single none]⟩ := by
  refine ⟨by decide, by decide⟩

/-! ## Facts about the index -/

theorem mapGet_mapSet_same {α : Type} (m : GoMap α) (k : String) (v : α) :
    mapGet (mapSet m k v) k = some v := by
  induction m with
  | nil => simp [mapSet, mapGet]
  | cons kv rest ih =>
    obtain ⟨k0, v0⟩ := kv
    by_cases h : k0 = k
    · simp [mapSet, mapGet, h]
    · simp [mapSet, mapGet, h, ih]

theorem mapGet_mapSet_ne {α : Type} (m : GoMap α) (k k1 : String) (v : α) (h : k1 ≠ k) :
    mapGet (mapSet m k v) k1 = mapGet m k1 := by
  induction m with
  | nil =>
    have h2 : ¬ k = k1 := fun e => h e.symm
    simp [mapSet, mapGet, h2]
  | cons kv rest ih =>
    obtain ⟨k0, v0⟩ := kv
    by_cases h0 : k0 = k
    · have h2 : ¬ k = k1 := fun e => h e.symm
      simp [mapSet, mapGet, h0, h2]
    · by_cases h3 : k0 = k1
      · subst h3
        simp [mapSet, mapGet, h0]
      · simp [mapSet, mapGet, h0, h3, ih]

theorem mapGet_getD_nil {α : Type} (o : Option (GoMap α)) (k : String) :
    mapGet (o.getD []) k = o.bind fun m => mapGet m k := by
  cases o <;> simp [mapGet]

theorem lookupVer_setVer_same (db : DB) (s v : String) (m : GoMap Translation) :
    lookupVer (setVer db s v m) s v = some m := by
  simp [lookupVer, setVer, mapGet_mapSet_same]

theorem lookupVer_setVer_ne (db : DB) (s v s1 v1 : String) (m : GoMap Translation)
    (h : s1 ≠ s ∨ v1 ≠ v) : lookupVer (setVer db s v m) s1 v1 = lookupVer db s1 v1 := by
  by_cases hs : s1 = s
  · subst hs
    have hv : v1 ≠ v := by
      rcases h with h | h
      · exact absurd rfl h
      · exact h
    simp [lookupVer, setVer, mapGet_mapSet_same, mapGet_mapSet_ne _ _ _ _ hv,
      mapGet_getD_nil]
  · simp [lookupVer, setVer, mapGet_mapSet_ne _ _ _ _ hs]

theorem mapGet_setVer_ne_none (db : DB) (s v s1 : String) (m : GoMap Translation)
    (h : mapGet db s1 ≠ none) : mapGet (setVer db s v m) s1 ≠ none := by
  by_cases hs : s1 = s
  · subst hs
    simp [setVer, mapGet_mapSet_same]
  · simpa [setVer, mapGet_mapSet_ne _ _ _ _ hs] using h

theorem lookupLeaf_setLeaf_same (db : DB) (s v l : String) (t : Translation) :
    lookupLeaf (setLeaf db s v l t) s v l = some t := by
  simp [lookupLeaf, setLeaf, lookupVer_setVer_same, mapGet_mapSet_same]

theorem lookupLeaf_setLeaf_ne (db : DB) (s v l s1 v1 l1 : String) (t : Translation)
    (h : s1 ≠ s ∨ v1 ≠ v ∨ l1 ≠ l) :
    lookupLeaf (setLeaf db s v l t) s1 v1 l1 = lookupLeaf db s1 v1 l1 := by
  by_cases hsv : s1 = s ∧ v1 = v
  · obtain ⟨hs, hv⟩ := hsv
    subst hs hv
    have hl : l1 ≠ l := by
      rcases h with h | h | h
      · exact absurd rfl h
      · exact absurd rfl h
      · exact h
    simp [lookupLeaf, setLeaf, lookupVer_setVer_same, mapGet_mapSet_ne _ _ _ _ hl,
      mapGet_getD_nil]
  · have h2 : s1 ≠ s ∨ v1 ≠ v := by
      by_contra hc
      push_neg at hc
      exact hsv hc
    simp [lookupLeaf, setLeaf, lookupVer_setVer_ne _ _ _ _ _ _ h2]

theorem lookupVer_setLeaf_ne_none (db : DB) (s v l s1 v1 : String) (t : Translation)
    (h : lookupVer db s1 v1 ≠ none) : lookupVer (setLeaf db s v l t) s1 v1 ≠ none := by
  by_cases hsv : s1 = s ∧ v1 = v
  · obtain ⟨hs, hv⟩ := hsv
    subst hs hv
    simp [setLeaf, lookupVer_setVer_same]
  · have h2 : s1 ≠ s ∨ v1 ≠ v := by
      by_contra hc
      push_neg at hc
      exact hsv hc
    simpa [setLeaf, lookupVer_setVer_ne _ _ _ _ _ _ h2] using h

theorem mapGet_setLeaf_ne_none (db : DB) (s v l s1 : String) (t : Translation)
    (h : mapGet db s1 ≠ none) : mapGet (setLeaf db s v l t) s1 ≠ none :=
  mapGet_setVer_ne_none db s v s1 _ h

/-! ## The loop body over translation sets -/

/-- The record `storeBuilt` stores for a translation set and a package. -/
theorem storeBuilt_of_ret (E : Env) (ps vs vp : String) (st : PollState) (ts : TranslationSet)
    (pkg : String) (hb : (buildPackageZip E vp ts.WPLocale).out = .ret pkg) :
    storeBuilt E ps vs vp st ts =
      .ret ⟨setLeaf st.db ps vs ts.WPLocale
          ⟨ts.WPLocale, ts.LastModified, GetLocaleProp E ts.WPLocale "EnglishName",
            GetLocaleProp E ts.WPLocale "NativeName", pkg⟩,
        st.err, st.builds ++ [⟨ps, vs, vp, ts.WPLocale⟩]⟩ := by
  simp [storeBuilt, hb, getTranslationByLocale]

/-- The loop body builds at most once: after the first branch has stored a
record the markers agree and the second branch is skipped. -/
theorem pollLeaf_eq (E : Env) (ps vs vp : String) (st : PollState) (ts : TranslationSet) :
    pollLeaf E ps vs vp st ts =
      match lookupLeaf st.db ps vs ts.WPLocale with
      | none => storeBuilt E ps vs vp st ts
      | some cur =>
        if cur.LastModified ≠ ts.LastModified then storeBuilt E ps vs vp st ts
        else .ret st := by
  unfold pollLeaf
  cases hl : lookupLeaf st.db ps vs ts.WPLocale with
  | some cur => simp [hl]
  | none =>
    cases hb : (buildPackageZip E vp ts.WPLocale).out with
    | fault msg => simp [storeBuilt, hb]
    | ret pkg =>
      simp [storeBuilt_of_ret E ps vs vp st ts pkg hb, lookupLeaf_setLeaf_same]


/-! ## How the index evolves along a cycle -/

theorem evolves_refl (mk : String → String → String → String) (db : DB) :
    Evolves mk db db :=
  ⟨fun _ _ _ h => h, fun _ h => h, fun _ _ h => h⟩

theorem evolves_trans {mk : String → String → String → String} {a b c : DB}
    (h1 : Evolves mk a b) (h2 : Evolves mk b c) : Evolves mk a c :=
  ⟨fun s v l h => h2.1 s v l (h1.1 s v l h), fun s h => h2.2.1 s (h1.2.1 s h),
    fun s v h => h2.2.2 s v (h1.2.2 s v h)⟩

theorem forRange_noop {σ α : Type} (body : σ → α → Run σ) (s : σ) (xs : List α)
    (h : ∀ x ∈ xs, body s x = .ret s) : forRange body s xs = .ret s := by
  induction xs with
  | nil => rfl
  | cons x rest ih =>
    simp only [forRange, h x (by simp)]
    exact ih fun y hy => h y (by simp [hy])

theorem forRange_establish {σ α : Type} (body : σ → α → Run σ) (R : σ → σ → Prop)
    (Q : α → σ → Prop) (hrefl : ∀ s, R s s)
    (htrans : ∀ a b c, R a b → R b c → R a c) (xs : List α)
    (mono : ∀ x ∈ xs, ∀ s s1, Q x s → R s s1 → Q x s1)
    (hstep : ∀ x ∈ xs, ∀ s s1, body s x = .ret s1 → R s s1 ∧ Q x s1) :
    ∀ s s1, forRange body s xs = .ret s1 → R s s1 ∧ ∀ x ∈ xs, Q x s1 := by
  induction xs with
  | nil =>
    intro s s1 h
    simp only [forRange, Run.ret.injEq] at h
    subst h
    exact ⟨hrefl s, fun x hx => absurd hx (by simp)⟩
  | cons x rest ih =>
    intro s s1 h
    simp only [forRange] at h
    cases hb : body s x with
    | fault msg => simp [hb] at h
    | ret s2 =>
      rw [hb] at h
      obtain ⟨hR, hQ⟩ := hstep x (by simp) s s2 hb
      obtain ⟨hR2, hQ2⟩ := ih (fun y hy => mono y (by simp [hy]))
        (fun y hy => hstep y (by simp [hy])) s2 s1 h
      refine ⟨htrans _ _ _ hR hR2, ?_⟩
      intro y hy
      rcases List.mem_cons.mp hy with rfl | hy
      · exact mono y (by simp) s2 s1 hQ hR2
      · exact hQ2 y hy

theorem storeBuilt_evolves (mk : String → String → String → String) (E : Env)
    (ps vs vp : String) (st st1 : PollState) (ts : TranslationSet)
    (hmk : ts.LastModified = mk ps vs ts.WPLocale)
    (h : storeBuilt E ps vs vp st ts = .ret st1) :
    Evolves mk st.db st1.db ∧ SyncedAt st1.db ps vs ts.WPLocale ts.LastModified := by
  cases hb : (buildPackageZip E vp ts.WPLocale).out with
  | fault msg => simp [storeBuilt, hb] at h
  | ret pkg =>
    rw [storeBuilt_of_ret E ps vs vp st ts pkg hb] at h
    simp only [Run.ret.injEq] at h
    subst h
    refine ⟨⟨?_, ?_, ?_⟩, ⟨_, lookupLeaf_setLeaf_same _ _ _ _ _, rfl⟩⟩
    · intro s v l hsync
      by_cases hk : s = ps ∧ v = vs ∧ l = ts.WPLocale
      · obtain ⟨rfl, rfl, rfl⟩ := hk
        exact ⟨_, lookupLeaf_setLeaf_same _ _ _ _ _, hmk⟩
      · have hne : s ≠ ps ∨ v ≠ vs ∨ l ≠ ts.WPLocale := by
          by_contra hc
          push_neg at hc
          exact hk hc
        obtain ⟨t, ht, hm⟩ := hsync
        exact ⟨t, by simp only [lookupLeaf_setLeaf_ne _ _ _ _ _ _ _ _ hne, ht], hm⟩
    · intro s hs
      exact mapGet_setLeaf_ne_none _ _ _ _ _ _ hs
    · intro s v hs
      exact lookupVer_setLeaf_ne_none _ _ _ _ _ _ _ hs

theorem pollLeaf_evolves (mk : String → String → String → String) (E : Env)
    (ps vs vp : String) (st st1 : PollState) (ts : TranslationSet)
    (hmk : ts.LastModified = mk ps vs ts.WPLocale)
    (h : pollLeaf E ps vs vp st ts = .ret st1) :
    Evolves mk st.db st1.db ∧ SyncedAt st1.db ps vs ts.WPLocale ts.LastModified := by
  rw [pollLeaf_eq] at h
  cases hl : lookupLeaf st.db ps vs ts.WPLocale with
  | none =>
    rw [hl] at h
    exact storeBuilt_evolves mk E ps vs vp st st1 ts hmk h
  | some cur =>
    rw [hl] at h
    by_cases hm : cur.LastModified = ts.LastModified
    · simp only [ne_eq, hm, not_true_eq_false, if_false, Run.ret.injEq] at h
      subst h
      exact ⟨evolves_refl mk _, cur, hl, hm⟩
    · simp only [ne_eq, hm, not_false_eq_true, if_true] at h
      exact storeBuilt_evolves mk E ps vs vp st st1 ts hmk h

theorem pollLeaf_noop (E : Env) (ps vs vp : String) (st : PollState) (ts : TranslationSet)
    (h : SyncedAt st.db ps vs ts.WPLocale ts.LastModified) :
    pollLeaf E ps vs vp st ts = .ret st := by
  obtain ⟨t, ht, hm⟩ := h
  rw [pollLeaf_eq, ht]
  simp [hm]


theorem lookupVer_mapSet_nil_ne (db : DB) (s s1 v : String) (h : s1 ≠ s) :
    lookupVer (mapSet db s []) s1 v = lookupVer db s1 v := by
  simp [lookupVer, mapGet_mapSet_ne _ _ _ _ h]

/-- Making the missing project level changes no leaf and removes no level. -/
theorem mapSet_nil_evolves (mk : String → String → String → String) (db : DB) (s : String)
    (h : mapGet db s = none) : Evolves mk db (mapSet db s []) := by
  refine ⟨?_, ?_, ?_⟩
  · rintro s1 v l ⟨t, ht, hm⟩
    by_cases hs : s1 = s
    · subst hs
      simp [lookupLeaf, lookupVer, h] at ht
    · exact ⟨t, by simpa [lookupLeaf, lookupVer_mapSet_nil_ne _ _ _ _ hs] using ht, hm⟩
  · intro s1 hs1
    by_cases hs : s1 = s
    · subst hs
      simp [mapGet_mapSet_same]
    · simpa [mapGet_mapSet_ne _ _ _ _ hs] using hs1
  · intro s1 v hv
    by_cases hs : s1 = s
    · subst hs
      simp [lookupVer, h] at hv
    · simpa [lookupVer_mapSet_nil_ne _ _ _ _ hs] using hv

/-- Making the missing version level changes no leaf and removes no level. -/
theorem setVer_nil_evolves (mk : String → String → String → String) (db : DB) (s v : String)
    (h : lookupVer db s v = none) : Evolves mk db (setVer db s v []) := by
  refine ⟨?_, ?_, ?_⟩
  · rintro s1 v1 l ⟨t, ht, hm⟩
    by_cases hsv : s1 = s ∧ v1 = v
    · obtain ⟨rfl, rfl⟩ := hsv
      simp [lookupLeaf, h] at ht
    · have h2 : s1 ≠ s ∨ v1 ≠ v := by
        by_contra hc
        push_neg at hc
        exact hsv hc
      exact ⟨t, by simpa [lookupLeaf, lookupVer_setVer_ne _ _ _ _ _ _ h2] using ht, hm⟩
  · intro s1 hs1
    exact mapGet_setVer_ne_none _ _ _ _ _ hs1
  · intro s1 v1 hv
    by_cases hsv : s1 = s ∧ v1 = v
    · obtain ⟨rfl, rfl⟩ := hsv
      simp [lookupVer_setVer_same]
    · have h2 : s1 ≠ s ∨ v1 ≠ v := by
        by_contra hc
        push_neg at hc
        exact hsv hc
      simpa [lookupVer_setVer_ne _ _ _ _ _ _ h2] using hv

theorem ensureSlug_evolves (mk : String → String → String → String) (st : PollState)
    (s : String) :
    Evolves mk st.db (ensureSlug st s).db ∧ mapGet (ensureSlug st s).db s ≠ none := by
  unfold ensureSlug
  cases hl : mapGet st.db s with
  | some m => exact ⟨evolves_refl mk _, by simp [hl]⟩
  | none => exact ⟨mapSet_nil_evolves mk _ _ hl, by simp [mapGet_mapSet_same]⟩

theorem ensureSlug_noop (st : PollState) (s : String) (h : mapGet st.db s ≠ none) :
    ensureSlug st s = st := by
  unfold ensureSlug
  cases hl : mapGet st.db s with
  | some m => rfl
  | none => exact absurd hl h

theorem ensureVer_evolves (mk : String → String → String → String) (st : PollState)
    (s v : String) :
    Evolves mk st.db (ensureVer st s v).db ∧ lookupVer (ensureVer st s v).db s v ≠ none := by
  unfold ensureVer
  cases hl : lookupVer st.db s v with
  | some m => exact ⟨evolves_refl mk _, by simp [hl]⟩
  | none => exact ⟨setVer_nil_evolves mk _ _ _ hl, by simp [lookupVer_setVer_same]⟩

theorem ensureVer_noop (st : PollState) (s v : String) (h : lookupVer st.db s v ≠ none) :
    ensureVer st s v = st := by
  unfold ensureVer
  cases hl : lookupVer st.db s v with
  | some m => rfl
  | none => exact absurd hl h

/-! ## What a returned cycle leaves settled -/

theorem SettledVersion_mono (mk : String → String → String → String) (E : Env)
    (ps : String) (pv : SubProject) (db db1 : DB) (hag : AgreeVersion mk E ps pv)
    (h : SettledVersion E db ps pv) (hev : Evolves mk db db1) :
    SettledVersion E db1 ps pv := by
  unfold SettledVersion at h ⊢
  rcases hf : fetchProject E pv.Path with ⟨⟨_ | v, _ | e⟩⟩ | msg
  · simp only [hf] at h
  · simp only [hf]
  · simp only [hf] at h ⊢
    obtain ⟨hv, hsets⟩ := h
    refine ⟨hev.2.2 _ _ hv, fun ts hts => ?_⟩
    have hmk := hag v hf ts hts
    rw [hmk]
    exact hev.1 _ _ _ (hmk ▸ hsets ts hts)
  · simp only [hf]
  · simp only [hf] at h

theorem pollVersion_establish (mk : String → String → String → String) (E : Env)
    (ps : String) (st st1 : PollState) (pv : SubProject) (hag : AgreeVersion mk E ps pv)
    (h : pollVersion E ps st pv = .ret st1) :
    Evolves mk st.db st1.db ∧ SettledVersion E st1.db ps pv := by
  unfold pollVersion at h
  unfold SettledVersion
  rcases hf : fetchProject E pv.Path with ⟨⟨_ | v, _ | e⟩⟩ | msg
  · simp [hf] at h
  · simp only [hf, Run.ret.injEq] at h ⊢
    subst h
    exact ⟨evolves_refl mk _, trivial⟩
  · simp only [hf] at h ⊢
    obtain ⟨hev0, hver0⟩ := ensureVer_evolves mk st ps pv.Slug
    have hloop := forRange_establish (pollLeaf E ps pv.Slug pv.Path)
      (fun a b => Evolves mk a.db b.db)
      (fun ts s => SyncedAt s.db ps pv.Slug ts.WPLocale ts.LastModified)
      (fun s => evolves_refl mk s.db) (fun _ _ _ h1 h2 => evolves_trans h1 h2)
      v.TranslationSets
      (fun ts hts s s1 hq hr => by
        have hmk := hag v hf ts hts
        simp only at hq ⊢
        rw [hmk] at hq ⊢
        exact hr.1 _ _ _ hq)
      (fun ts hts s s1 hb => pollLeaf_evolves mk E ps pv.Slug pv.Path s s1 ts
        (hag v hf ts hts) hb)
      _ st1 h
    exact ⟨evolves_trans hev0 hloop.1, hloop.1.2.2 _ _ hver0, hloop.2⟩
  · simp only [hf, Run.ret.injEq] at h ⊢
    subst h
    exact ⟨evolves_refl mk _, trivial⟩
  · simp [hf] at h

theorem pollVersion_noop (E : Env) (ps : String) (st : PollState) (pv : SubProject)
    (h : SettledVersion E st.db ps pv) : pollVersion E ps st pv = .ret st := by
  unfold SettledVersion at h
  unfold pollVersion
  rcases hf : fetchProject E pv.Path with ⟨⟨_ | v, _ | e⟩⟩ | msg
  · simp only [hf] at h
  · simp only [hf]
  · simp only [hf] at h ⊢
    obtain ⟨hv, hsets⟩ := h
    rw [ensureVer_noop st ps pv.Slug hv]
    exact forRange_noop _ _ _ fun ts hts =>
      pollLeaf_noop E ps pv.Slug pv.Path st ts (hsets ts hts)
  · simp only [hf]
  · simp only [hf] at h

theorem SettledProject_mono (mk : String → String → String → String) (E : Env)
    (p : SubProject) (db db1 : DB) (hag : AgreeProject mk E p)
    (h : SettledProject E db p) (hev : Evolves mk db db1) : SettledProject E db1 p := by
  unfold SettledProject at h ⊢
  refine ⟨hev.2.1 _ h.1, ?_⟩
  have h2 := h.2
  rcases hf : fetchProject E p.Path with ⟨⟨_ | fp, _ | e⟩⟩ | msg
  · simp only [hf] at h2
  · simp only [hf]
  · simp only [hf] at h2 ⊢
    intro pv hpv
    exact SettledVersion_mono mk E p.Slug pv db db1 (hag fp hf pv hpv) (h2 pv hpv) hev
  · simp only [hf]
  · simp only [hf] at h2

theorem pollProject_establish (mk : String → String → String → String) (E : Env)
    (st st1 : PollState) (p : SubProject) (hag : AgreeProject mk E p)
    (h : pollProject E st p = .ret st1) :
    Evolves mk st.db st1.db ∧ SettledProject E st1.db p := by
  obtain ⟨hev0, hslug0⟩ := ensureSlug_evolves mk st p.Slug
  unfold pollProject at h
  unfold SettledProject
  rcases hf : fetchProject E p.Path with ⟨⟨_ | fp, _ | e⟩⟩ | msg
  · simp [hf] at h
  · simp only [hf, Run.ret.injEq] at h ⊢
    subst h
    exact ⟨hev0, hslug0, trivial⟩
  · simp only [hf] at h ⊢
    have hloop := forRange_establish (pollVersion E p.Slug)
      (fun a b => Evolves mk a.db b.db)
      (fun pv s => SettledVersion E s.db p.Slug pv)
      (fun s => evolves_refl mk s.db) (fun _ _ _ h1 h2 => evolves_trans h1 h2)
      fp.SubProjects
      (fun pv hpv s s1 hq hr =>
        SettledVersion_mono mk E p.Slug pv s.db s1.db (hag fp hf pv hpv) hq hr)
      (fun pv hpv s s1 hb => pollVersion_establish mk E p.Slug s s1 pv (hag fp hf pv hpv) hb)
      _ st1 h
    exact ⟨evolves_trans hev0 hloop.1, hloop.1.2.1 _ hslug0, hloop.2⟩
  · simp only [hf, Run.ret.injEq] at h ⊢
    subst h
    exact ⟨hev0, hslug0, trivial⟩
  · simp [hf] at h

theorem pollProject_noop (E : Env) (st : PollState) (p : SubProject)
    (h : SettledProject E st.db p) : pollProject E st p = .ret st := by
  unfold SettledProject at h
  obtain ⟨hs, h2⟩ := h
  unfold pollProject
  rw [ensureSlug_noop st p.Slug hs]
  rcases hf : fetchProject E p.Path with ⟨⟨_ | fp, _ | e⟩⟩ | msg
  · simp only [hf] at h2
  · simp only [hf]
  · simp only [hf] at h2 ⊢
    exact forRange_noop _ _ _ fun pv hpv => pollVersion_noop E p.Slug st pv (h2 pv hpv)
  · simp only [hf]
  · simp only [hf] at h2

theorem poll_establish (mk : String → String → String → String) (E : Env)
    (st st1 : PollState) (wc : Project) (hag : AgreeCycle mk E)
    (hf : fetchProject E "woocommerce" = .ret (some wc, none))
    (h : poll E st = .ret st1) :
    Evolves mk st.db st1.db ∧ ∀ p ∈ wc.SubProjects, SettledProject E st1.db p := by
  unfold poll at h
  simp only [hf] at h
  exact forRange_establish (pollProject E) (fun a b => Evolves mk a.db b.db)
    (fun p s => SettledProject E s.db p)
    (fun s => evolves_refl mk s.db) (fun _ _ _ h1 h2 => evolves_trans h1 h2)
    wc.SubProjects
    (fun p hp s s1 hq hr => SettledProject_mono mk E p s.db s1.db (hag wc hf p hp) hq hr)
    (fun p hp s s1 hb => pollProject_establish mk E s s1 p (hag wc hf p hp) hb)
    st st1 h

theorem poll_noop (E : Env) (st : PollState) (wc : Project)
    (hf : fetchProject E "woocommerce" = .ret (some wc, none))
    (h : ∀ p ∈ wc.SubProjects, SettledProject E st.db p) : poll E st = .ret st := by
  unfold poll
  simp only [hf]
  exact forRange_noop _ _ _ fun p hp => pollProject_noop E st p (h p hp)


/-! ## The leaves a cycle visits -/

theorem fetched_of_fetchProject (E : Env) (path : String) (p : Project)
    (h : fetchProject E path = .ret (some p, none)) : fetched E path = some p := by
  simp [fetched, h]

theorem fetchProject_of_fetched (E : Env) (path : String) (p : Project)
    (h : fetched E path = some p) : fetchProject E path = .ret (some p, none) := by
  unfold fetched at h
  rcases hf : fetchProject E path with ⟨⟨_ | q, _ | e⟩⟩ | msg <;> simp [hf] at h
  rw [h]

theorem mem_observedLeaves (E : Env) (wc fp v : Project) (p pv : SubProject)
    (ts : TranslationSet) (hwc : fetchProject E "woocommerce" = .ret (some wc, none))
    (hp : p ∈ wc.SubProjects) (hfp : fetchProject E p.Path = .ret (some fp, none))
    (hpv : pv ∈ fp.SubProjects) (hv : fetchProject E pv.Path = .ret (some v, none))
    (hts : ts ∈ v.TranslationSets) : (p.Slug, pv.Slug, ts) ∈ observedLeaves E := by
  unfold observedLeaves
  rw [fetched_of_fetchProject E _ wc hwc]
  refine List.mem_flatMap.mpr ⟨p, hp, ?_⟩
  rw [fetched_of_fetchProject E _ fp hfp]
  refine List.mem_flatMap.mpr ⟨pv, hpv, ?_⟩
  rw [fetched_of_fetchProject E _ v hv]
  exact List.mem_map.mpr ⟨ts, hts, rfl⟩

theorem observedLeaves_mem (E : Env) (a : String × String × TranslationSet)
    (ha : a ∈ observedLeaves E) :
    ∃ wc fp v p pv, fetchProject E "woocommerce" = .ret (some wc, none) ∧
      p ∈ wc.SubProjects ∧ fetchProject E p.Path = .ret (some fp, none) ∧
      pv ∈ fp.SubProjects ∧ fetchProject E pv.Path = .ret (some v, none) ∧
      a.2.2 ∈ v.TranslationSets ∧ a.1 = p.Slug ∧ a.2.1 = pv.Slug := by
  unfold observedLeaves at ha
  cases hwc : fetched E "woocommerce" with
  | none => simp [hwc] at ha
  | some wc =>
    simp only [hwc] at ha
    obtain ⟨p, hp, ha⟩ := List.mem_flatMap.mp ha
    cases hfp : fetched E p.Path with
    | none => simp [hfp] at ha
    | some fp =>
      simp only [hfp] at ha
      obtain ⟨pv, hpv, ha⟩ := List.mem_flatMap.mp ha
      cases hv : fetched E pv.Path with
      | none => simp [hv] at ha
      | some v =>
        simp only [hv] at ha
        obtain ⟨ts, hts, rfl⟩ := List.mem_map.mp ha
        exact ⟨wc, fp, v, p, pv, fetchProject_of_fetched E _ wc hwc, hp,
          fetchProject_of_fetched E _ fp hfp, hpv, fetchProject_of_fetched E _ v hv, hts,
          rfl, rfl⟩

theorem markerOf_observed (E : Env) (hc : ConsistentMarkers E)
    (a : String × String × TranslationSet) (ha : a ∈ observedLeaves E) :
    a.2.2.LastModified = markerOf E a.1 a.2.1 a.2.2.WPLocale := by
  unfold markerOf
  cases hfind : (observedLeaves E).find? fun b =>
      decide (b.1 = a.1 ∧ b.2.1 = a.2.1 ∧ b.2.2.WPLocale = a.2.2.WPLocale) with
  | none =>
    have := List.find?_eq_none.mp hfind a ha
    simp at this
  | some b =>
    have hb := List.mem_of_find?_eq_some hfind
    have hp := List.find?_some hfind
    simp only [decide_eq_true_eq] at hp
    exact hc a ha b hb hp.1.symm hp.2.1.symm hp.2.2.symm

theorem agreeCycle_markerOf (E : Env) (hc : ConsistentMarkers E) :
    AgreeCycle (markerOf E) E := by
  intro wc hwc p hp fp hfp pv hpv v hv ts hts
  exact markerOf_observed E hc (p.Slug, pv.Slug, ts)
    (mem_observedLeaves E wc fp v p pv ts hwc hp hfp hpv hv hts)

/-- After a cycle that returns, with consistent markers, every visited leaf
is in the index under the marker seen for it. -/
theorem poll_syncs_observed (E : Env) (st st1 : PollState) (hc : ConsistentMarkers E)
    (h : poll E st = .ret st1) (a : String × String × TranslationSet)
    (ha : a ∈ observedLeaves E) :
    SyncedAt st1.db a.1 a.2.1 a.2.2.WPLocale a.2.2.LastModified := by
  obtain ⟨wc, fp, v, p, pv, hwc, hp, hfp, hpv, hv, hts, h1, h2⟩ := observedLeaves_mem E a ha
  have hset := (poll_establish (markerOf E) E st st1 wc (agreeCycle_markerOf E hc) hwc h).2 p hp
  unfold SettledProject at hset
  have hset2 := hset.2
  simp only [hfp] at hset2
  have hset3 := hset2 pv hpv
  unfold SettledVersion at hset3
  simp only [hv] at hset3
  rw [h1, h2]
  exact hset3.2 _ hts

/-! ## One leaf through a cycle -/

theorem lookupLeaf_ensureSlug (st : PollState) (x s v l : String) :
    lookupLeaf (ensureSlug st x).db s v l = lookupLeaf st.db s v l := by
  unfold ensureSlug
  cases hl : mapGet st.db x with
  | some m => rfl
  | none =>
    by_cases hs : s = x
    · subst hs
      simp [lookupLeaf, lookupVer, mapGet_mapSet_same, hl, mapGet]
    · simp [lookupLeaf, lookupVer_mapSet_nil_ne _ _ _ _ hs]

theorem lookupLeaf_ensureVer (st : PollState) (x y s v l : String) :
    lookupLeaf (ensureVer st x y).db s v l = lookupLeaf st.db s v l := by
  unfold ensureVer
  cases hl : lookupVer st.db x y with
  | some m => rfl
  | none =>
    by_cases hsv : s = x ∧ v = y
    · obtain ⟨rfl, rfl⟩ := hsv
      simp [lookupLeaf, lookupVer_setVer_same, hl, mapGet]
    · have h2 : s ≠ x ∨ v ≠ y := by
        by_contra hc
        push_neg at hc
        exact hsv hc
      simp [lookupLeaf, lookupVer_setVer_ne _ _ _ _ _ _ h2]

theorem builds_ensureSlug (st : PollState) (x : String) :
    (ensureSlug st x).builds = st.builds := by
  unfold ensureSlug
  cases mapGet st.db x <;> rfl

theorem builds_ensureVer (st : PollState) (x y : String) :
    (ensureVer st x y).builds = st.builds := by
  unfold ensureVer
  cases lookupVer st.db x y <;> rfl

theorem buildsFor_append_same (s v l : String) (log : List BuildCall) (path : String) :
    buildsFor s v l (log ++ [⟨s, v, path, l⟩]) = buildsFor s v l log ++ [⟨s, v, path, l⟩] := by
  simp [buildsFor, List.filter_append]

theorem buildsFor_append_ne (s v l : String) (log : List BuildCall) (c : BuildCall)
    (h : c.pSlug ≠ s ∨ c.pvSlug ≠ v ∨ c.locale ≠ l) :
    buildsFor s v l (log ++ [c]) = buildsFor s v l log := by
  have hc : ¬ (c.pSlug = s ∧ c.pvSlug = v ∧ c.locale = l) := by
    rintro ⟨h1, h2, h3⟩
    rcases h with h | h | h
    · exact h h1
    · exact h h2
    · exact h h3
  simp [buildsFor, List.filter_append, hc]

/-- A state with the same entry and the same calls for the leaf is in the
same phase. -/
theorem LeafPending_of_view (s v l : String) (st0 st st1 : PollState)
    (hdb : lookupLeaf st1.db s v l = lookupLeaf st.db s v l)
    (hb : buildsFor s v l st1.builds = buildsFor s v l st.builds)
    (h : LeafPending s v l st0 st) : LeafPending s v l st0 st1 :=
  ⟨hdb.trans h.1, hb.trans h.2⟩

theorem LeafDone_of_view (E : Env) (s v l B : String) (st0 st st1 : PollState)
    (hdb : lookupLeaf st1.db s v l = lookupLeaf st.db s v l)
    (hb : buildsFor s v l st1.builds = buildsFor s v l st.builds)
    (h : LeafDone E s v l B st0 st) : LeafDone E s v l B st0 st1 := by
  obtain ⟨path, pkg, hout, hlog, hent⟩ := h
  exact ⟨path, pkg, hout, hb.trans hlog, hdb.trans hent⟩

/-- The loop body at another leaf leaves the entry and the calls of the
leaf alone. -/
theorem pollLeaf_other (E : Env) (ps vs vp : String) (st st1 : PollState)
    (ts : TranslationSet) (s v l : String) (hne : s ≠ ps ∨ v ≠ vs ∨ l ≠ ts.WPLocale)
    (h : pollLeaf E ps vs vp st ts = .ret st1) :
    lookupLeaf st1.db s v l = lookupLeaf st.db s v l ∧
      buildsFor s v l st1.builds = buildsFor s v l st.builds := by
  have hstore : ∀ st2, storeBuilt E ps vs vp st ts = .ret st2 →
      lookupLeaf st2.db s v l = lookupLeaf st.db s v l ∧
        buildsFor s v l st2.builds = buildsFor s v l st.builds := by
    intro st2 h2
    cases hb : (buildPackageZip E vp ts.WPLocale).out with
    | fault msg => simp [storeBuilt, hb] at h2
    | ret pkg =>
      rw [storeBuilt_of_ret E ps vs vp st ts pkg hb] at h2
      simp only [Run.ret.injEq] at h2
      subst h2
      refine ⟨lookupLeaf_setLeaf_ne _ _ _ _ _ _ _ _ hne, buildsFor_append_ne _ _ _ _ _ ?_⟩
      rcases hne with h | h | h
      · exact Or.inl (Ne.symm h)
      · exact Or.inr (Or.inl (Ne.symm h))
      · exact Or.inr (Or.inr (Ne.symm h))
  rw [pollLeaf_eq] at h
  cases hl : lookupLeaf st.db ps vs ts.WPLocale with
  | none =>
    rw [hl] at h
    exact hstore st1 h
  | some cur =>
    rw [hl] at h
    by_cases hm : cur.LastModified = ts.LastModified
    · simp only [ne_eq, hm, not_true_eq_false, if_false, Run.ret.injEq] at h
      subst h
      exact ⟨rfl, rfl⟩
    · simp only [ne_eq, hm, not_false_eq_true, if_true] at h
      exact hstore st1 h

/-- The loop body at the leaf itself, seen with the marker `B`, when the
cycle did not find the leaf under `B`: a pending leaf is rebuilt, a rebuilt
leaf is left alone. -/
theorem pollLeaf_track (E : Env) (s v l B vp : String) (st0 st st1 : PollState)
    (ts : TranslationSet) (hl : ts.WPLocale = l) (hB : ts.LastModified = B)
    (h0 : ¬ SyncedAt st0.db s v l B)
    (hinv : LeafPending s v l st0 st ∨ LeafDone E s v l B st0 st)
    (h : pollLeaf E s v vp st ts = .ret st1) : LeafDone E s v l B st0 st1 := by
  subst hl hB
  rcases hinv with hpend | hdone
  · have hrun : pollLeaf E s v vp st ts = storeBuilt E s v vp st ts := by
      rw [pollLeaf_eq]
      cases hcur : lookupLeaf st.db s v ts.WPLocale with
      | none => rfl
      | some cur =>
        have hm : cur.LastModified ≠ ts.LastModified := by
          intro e
          exact h0 ⟨cur, by rw [← hpend.1, hcur], e⟩
        simp [hm]
    rw [hrun] at h
    cases hb : (buildPackageZip E vp ts.WPLocale).out with
    | fault msg => simp [storeBuilt, hb] at h
    | ret pkg =>
      rw [storeBuilt_of_ret E s v vp st ts pkg hb] at h
      simp only [Run.ret.injEq] at h
      subst h
      refine ⟨vp, pkg, hb, ?_, lookupLeaf_setLeaf_same _ _ _ _ _⟩
      simp only [buildsFor_append_same, hpend.2]
  · obtain ⟨path, pkg, hout, hlog, hent⟩ := hdone
    have hnoop := pollLeaf_noop E s v vp st ts ⟨_, hent, rfl⟩
    rw [hnoop] at h
    simp only [Run.ret.injEq] at h
    subst h
    exact ⟨path, pkg, hout, hlog, hent⟩


theorem forRange_invariant {σ α : Type} (body : σ → α → Run σ) (Inv : σ → Prop)
    (R : σ → σ → Prop) (Q : α → σ → Prop) (hrefl : ∀ s, R s s)
    (htrans : ∀ a b c, R a b → R b c → R a c) (xs : List α)
    (mono : ∀ x ∈ xs, ∀ s s1, Q x s → R s s1 → Q x s1)
    (hstep : ∀ x ∈ xs, ∀ s s1, Inv s → body s x = .ret s1 → Inv s1 ∧ R s s1 ∧ Q x s1) :
    ∀ s s1, Inv s → forRange body s xs = .ret s1 → Inv s1 ∧ R s s1 ∧ ∀ x ∈ xs, Q x s1 := by
  induction xs with
  | nil =>
    intro s s1 hinv h
    simp only [forRange, Run.ret.injEq] at h
    subst h
    exact ⟨hinv, hrefl s, fun x hx => absurd hx (by simp)⟩
  | cons x rest ih =>
    intro s s1 hinv h
    simp only [forRange] at h
    cases hb : body s x with
    | fault msg => simp [hb] at h
    | ret s2 =>
      rw [hb] at h
      obtain ⟨hI, hR, hQ⟩ := hstep x (by simp) s s2 hinv hb
      obtain ⟨hI2, hR2, hQ2⟩ := ih (fun y hy => mono y (by simp [hy]))
        (fun y hy => hstep y (by simp [hy])) s2 s1 hI h
      refine ⟨hI2, htrans _ _ _ hR hR2, ?_⟩
      intro y hy
      rcases List.mem_cons.mp hy with rfl | hy
      · exact mono y (by simp) s2 s1 hQ hR2
      · exact hQ2 y hy

theorem pollLeaf_step (E : Env) (s v l B ps vs vp : String) (st0 st st1 : PollState)
    (ts : TranslationSet) (hP : ps = s → vs = v → ts.WPLocale = l → ts.LastModified = B)
    (h0 : ¬ SyncedAt st0.db s v l B)
    (hinv : LeafPending s v l st0 st ∨ LeafDone E s v l B st0 st)
    (h : pollLeaf E ps vs vp st ts = .ret st1) :
    (LeafPending s v l st0 st1 ∨ LeafDone E s v l B st0 st1) ∧
      (LeafDone E s v l B st0 st → LeafDone E s v l B st0 st1) ∧
      (ps = s → vs = v → ts.WPLocale = l → LeafDone E s v l B st0 st1) := by
  by_cases hk : ps = s ∧ vs = v ∧ ts.WPLocale = l
  · obtain ⟨h1, h2, h3⟩ := hk
    subst h1 h2
    have hd := pollLeaf_track E ps vs l B vp st0 st st1 ts h3 (hP rfl rfl h3) h0 hinv h
    exact ⟨Or.inr hd, fun _ => hd, fun _ _ _ => hd⟩
  · have hne : s ≠ ps ∨ v ≠ vs ∨ l ≠ ts.WPLocale := by
      by_contra hc
      push_neg at hc
      exact hk ⟨hc.1.symm, hc.2.1.symm, hc.2.2.symm⟩
    obtain ⟨hdb, hb⟩ := pollLeaf_other E ps vs vp st st1 ts s v l hne h
    refine ⟨?_, fun hd => LeafDone_of_view E s v l B st0 st st1 hdb hb hd,
      fun h1 h2 h3 => absurd ⟨h1, h2, h3⟩ hk⟩
    rcases hinv with hp | hd
    · exact Or.inl (LeafPending_of_view s v l st0 st st1 hdb hb hp)
    · exact Or.inr (LeafDone_of_view E s v l B st0 st st1 hdb hb hd)

theorem pollVersion_step (E : Env) (s v l B ps : String) (st0 st st1 : PollState)
    (pv : SubProject)
    (hP : HoldsVersion (fun x y ts => x = s → y = v → ts.WPLocale = l → ts.LastModified = B)
      E ps pv)
    (h0 : ¬ SyncedAt st0.db s v l B)
    (hinv : LeafPending s v l st0 st ∨ LeafDone E s v l B st0 st)
    (h : pollVersion E ps st pv = .ret st1) :
    (LeafPending s v l st0 st1 ∨ LeafDone E s v l B st0 st1) ∧
      (LeafDone E s v l B st0 st → LeafDone E s v l B st0 st1) ∧
      (∀ vp, ps = s → pv.Slug = v → fetchProject E pv.Path = .ret (some vp, none) →
        (∃ ts ∈ vp.TranslationSets, ts.WPLocale = l) → LeafDone E s v l B st0 st1) := by
  unfold pollVersion at h
  rcases hf : fetchProject E pv.Path with ⟨⟨_ | vproj, _ | e⟩⟩ | msg
  · simp [hf] at h
  · simp only [hf, Run.ret.injEq] at h
    subst h
    exact ⟨hinv, fun hd => hd, fun vp _ _ hvp => by simp at hvp⟩
  · simp only [hf] at h
    have hdb := lookupLeaf_ensureVer st ps pv.Slug s v l
    have hb := congrArg (buildsFor s v l) (builds_ensureVer st ps pv.Slug)
    have hinv1 : LeafPending s v l st0 (ensureVer st ps pv.Slug) ∨
        LeafDone E s v l B st0 (ensureVer st ps pv.Slug) := by
      rcases hinv with hp | hd
      · exact Or.inl (LeafPending_of_view s v l st0 st _ hdb hb hp)
      · exact Or.inr (LeafDone_of_view E s v l B st0 st _ hdb hb hd)
    have hloop := forRange_invariant (pollLeaf E ps pv.Slug pv.Path)
      (fun x => LeafPending s v l st0 x ∨ LeafDone E s v l B st0 x)
      (fun x y => LeafDone E s v l B st0 x → LeafDone E s v l B st0 y)
      (fun ts x => ps = s → pv.Slug = v → ts.WPLocale = l → LeafDone E s v l B st0 x)
      (fun _ hd => hd) (fun _ _ _ h1 h2 hd => h2 (h1 hd)) vproj.TranslationSets
      (fun ts _ x y hq hr h1 h2 h3 => hr (hq h1 h2 h3))
      (fun ts hts x y hx hb => pollLeaf_step E s v l B ps pv.Slug pv.Path st0 x y ts
        (hP vproj hf ts hts) h0 hx hb)
      _ st1 hinv1 h
    refine ⟨hloop.1, fun hd => hloop.2.1 (LeafDone_of_view E s v l B st0 st _ hdb hb hd), ?_⟩
    intro vp h1 h2 hvp hts
    simp only [Run.ret.injEq, Prod.mk.injEq, Option.some.injEq, and_true] at hvp
    subst hvp
    obtain ⟨ts, hts, hl⟩ := hts
    exact hloop.2.2 ts hts h1 h2 hl
  · simp only [hf, Run.ret.injEq] at h
    subst h
    exact ⟨hinv, fun hd => hd, fun vp _ _ hvp => by simp at hvp⟩
  · simp [hf] at h


theorem pollProject_step (E : Env) (s v l B : String) (st0 st st1 : PollState)
    (p : SubProject)
    (hP : HoldsProject (fun x y ts => x = s → y = v → ts.WPLocale = l → ts.LastModified = B)
      E p)
    (h0 : ¬ SyncedAt st0.db s v l B)
    (hinv : LeafPending s v l st0 st ∨ LeafDone E s v l B st0 st)
    (h : pollProject E st p = .ret st1) :
    (LeafPending s v l st0 st1 ∨ LeafDone E s v l B st0 st1) ∧
      (LeafDone E s v l B st0 st → LeafDone E s v l B st0 st1) ∧
      (∀ fp pv vp, p.Slug = s → fetchProject E p.Path = .ret (some fp, none) →
        pv ∈ fp.SubProjects → pv.Slug = v →
        fetchProject E pv.Path = .ret (some vp, none) →
        (∃ ts ∈ vp.TranslationSets, ts.WPLocale = l) → LeafDone E s v l B st0 st1) := by
  have hdb := lookupLeaf_ensureSlug st p.Slug s v l
  have hb := congrArg (buildsFor s v l) (builds_ensureSlug st p.Slug)
  have hinv1 : LeafPending s v l st0 (ensureSlug st p.Slug) ∨
      LeafDone E s v l B st0 (ensureSlug st p.Slug) := by
    rcases hinv with hp | hd
    · exact Or.inl (LeafPending_of_view s v l st0 st _ hdb hb hp)
    · exact Or.inr (LeafDone_of_view E s v l B st0 st _ hdb hb hd)
  have hkeep : LeafDone E s v l B st0 st → LeafDone E s v l B st0 (ensureSlug st p.Slug) :=
    fun hd => LeafDone_of_view E s v l B st0 st _ hdb hb hd
  unfold pollProject at h
  rcases hf : fetchProject E p.Path with ⟨⟨_ | fproj, _ | e⟩⟩ | msg
  · simp [hf] at h
  · simp only [hf, Run.ret.injEq] at h
    subst h
    exact ⟨hinv1, hkeep, fun fp pv vp _ hfp => by simp at hfp⟩
  · simp only [hf] at h
    have hloop := forRange_invariant (pollVersion E p.Slug)
      (fun x => LeafPending s v l st0 x ∨ LeafDone E s v l B st0 x)
      (fun x y => LeafDone E s v l B st0 x → LeafDone E s v l B st0 y)
      (fun pv x => ∀ vp, p.Slug = s → pv.Slug = v →
        fetchProject E pv.Path = .ret (some vp, none) →
        (∃ ts ∈ vp.TranslationSets, ts.WPLocale = l) → LeafDone E s v l B st0 x)
      (fun _ hd => hd) (fun _ _ _ h1 h2 hd => h2 (h1 hd)) fproj.SubProjects
      (fun pv _ x y hq hr vp h1 h2 h3 h4 => hr (hq vp h1 h2 h3 h4))
      (fun pv hpv x y hx hb => pollVersion_step E s v l B p.Slug st0 x y pv
        (hP fproj hf pv hpv) h0 hx hb)
      _ st1 hinv1 h
    refine ⟨hloop.1, fun hd => hloop.2.1 (hkeep hd), ?_⟩
    intro fp pv vp h1 hfp hpv h2 hvp hts
    simp only [Run.ret.injEq, Prod.mk.injEq, Option.some.injEq, and_true] at hfp
    subst hfp
    exact hloop.2.2 pv hpv vp h1 h2 hvp hts
  · simp only [hf, Run.ret.injEq] at h
    subst h
    exact ⟨hinv1, hkeep, fun fp pv vp _ hfp => by simp at hfp⟩
  · simp [hf] at h

theorem holdsCycle_of_observed (P : String → String → TranslationSet → Prop) (E : Env)
    (h : ∀ b ∈ observedLeaves E, P b.1 b.2.1 b.2.2) : HoldsCycle P E := by
  intro wc hwc p hp fp hfp pv hpv v hv ts hts
  exact h (p.Slug, pv.Slug, ts) (mem_observedLeaves E wc fp v p pv ts hwc hp hfp hpv hv hts)

/-- A leaf that a returned cycle visits, always with the marker `B`, and
that the cycle did not find under `B`, has been rebuilt exactly once when the
cycle ends. -/
theorem poll_leaf_rebuilt (E : Env) (st st1 : PollState)
    (a : String × String × TranslationSet) (ha : a ∈ observedLeaves E)
    (hk : ∀ b ∈ observedLeaves E, b.1 = a.1 → b.2.1 = a.2.1 →
      b.2.2.WPLocale = a.2.2.WPLocale → b.2.2.LastModified = a.2.2.LastModified)
    (h0 : ¬ SyncedAt st.db a.1 a.2.1 a.2.2.WPLocale a.2.2.LastModified)
    (hp : poll E st = .ret st1) :
    LeafDone E a.1 a.2.1 a.2.2.WPLocale a.2.2.LastModified st st1 := by
  obtain ⟨wc, fp, v, p, pv, hwc, hpm, hfp, hpvm, hv, hts, h1, h2⟩ := observedLeaves_mem E a ha
  have hP := holdsCycle_of_observed
    (fun x y ts => x = a.1 → y = a.2.1 → ts.WPLocale = a.2.2.WPLocale →
      ts.LastModified = a.2.2.LastModified) E hk
  unfold poll at hp
  simp only [hwc] at hp
  have hloop := forRange_invariant (pollProject E)
    (fun x => LeafPending a.1 a.2.1 a.2.2.WPLocale st x ∨
      LeafDone E a.1 a.2.1 a.2.2.WPLocale a.2.2.LastModified st x)
    (fun x y => LeafDone E a.1 a.2.1 a.2.2.WPLocale a.2.2.LastModified st x →
      LeafDone E a.1 a.2.1 a.2.2.WPLocale a.2.2.LastModified st y)
    (fun p x => ∀ fp pv vp, p.Slug = a.1 → fetchProject E p.Path = .ret (some fp, none) →
      pv ∈ fp.SubProjects → pv.Slug = a.2.1 →
      fetchProject E pv.Path = .ret (some vp, none) →
      (∃ ts ∈ vp.TranslationSets, ts.WPLocale = a.2.2.WPLocale) →
      LeafDone E a.1 a.2.1 a.2.2.WPLocale a.2.2.LastModified st x)
    (fun _ hd => hd) (fun _ _ _ h1 h2 hd => h2 (h1 hd)) wc.SubProjects
    (fun p _ x y hq hr fp pv vp h1 h2 h3 h4 h5 h6 => hr (hq fp pv vp h1 h2 h3 h4 h5 h6))
    (fun p hpm x y hx hb => pollProject_step E a.1 a.2.1 a.2.2.WPLocale a.2.2.LastModified
      st x y p (hP wc hwc p hpm) h0 hx hb)
    st st1 (Or.inl ⟨rfl, rfl⟩) hp
  exact hloop.2.2 p hpm fp pv v h1.symm hfp hpvm h2.symm hv ⟨a.2.2, hts, rfl⟩


theorem pollLeaf_quiet_step (E : Env) (s v l ps vs vp : String) (st0 st st1 : PollState)
    (ts : TranslationSet)
    (hP : ps = s → vs = v → ts.WPLocale = l → SyncedAt st0.db s v l ts.LastModified)
    (hinv : LeafPending s v l st0 st) (h : pollLeaf E ps vs vp st ts = .ret st1) :
    LeafPending s v l st0 st1 := by
  by_cases hk : ps = s ∧ vs = v ∧ ts.WPLocale = l
  · obtain ⟨h1, h2, h3⟩ := hk
    have hsync := hP h1 h2 h3
    subst h1 h2 h3
    have hnoop := pollLeaf_noop E ps vs vp st ts (by
      obtain ⟨t, ht, hm⟩ := hsync
      exact ⟨t, hinv.1.trans ht, hm⟩)
    rw [hnoop] at h
    simp only [Run.ret.injEq] at h
    subst h
    exact hinv
  · have hne : s ≠ ps ∨ v ≠ vs ∨ l ≠ ts.WPLocale := by
      by_contra hc
      push_neg at hc
      exact hk ⟨hc.1.symm, hc.2.1.symm, hc.2.2.symm⟩
    obtain ⟨hdb, hb⟩ := pollLeaf_other E ps vs vp st st1 ts s v l hne h
    exact LeafPending_of_view s v l st0 st st1 hdb hb hinv

theorem pollVersion_quiet_step (E : Env) (s v l ps : String) (st0 st st1 : PollState)
    (pv : SubProject)
    (hP : HoldsVersion (fun x y ts => x = s → y = v → ts.WPLocale = l →
      SyncedAt st0.db s v l ts.LastModified) E ps pv)
    (hinv : LeafPending s v l st0 st) (h : pollVersion E ps st pv = .ret st1) :
    LeafPending s v l st0 st1 := by
  unfold pollVersion at h
  rcases hf : fetchProject E pv.Path with ⟨⟨_ | vproj, _ | e⟩⟩ | msg
  · simp [hf] at h
  · simp only [hf, Run.ret.injEq] at h
    subst h
    exact hinv
  · simp only [hf] at h
    have hinv1 : LeafPending s v l st0 (ensureVer st ps pv.Slug) :=
      LeafPending_of_view s v l st0 st _ (lookupLeaf_ensureVer st ps pv.Slug s v l)
        (congrArg (buildsFor s v l) (builds_ensureVer st ps pv.Slug)) hinv
    exact (forRange_invariant (pollLeaf E ps pv.Slug pv.Path)
      (fun x => LeafPending s v l st0 x) (fun _ _ => True) (fun _ _ => True)
      (fun _ => trivial) (fun _ _ _ _ _ => trivial) vproj.TranslationSets
      (fun _ _ _ _ _ _ => trivial)
      (fun ts hts x y hx hb => ⟨pollLeaf_quiet_step E s v l ps pv.Slug pv.Path st0 x y ts
        (hP vproj hf ts hts) hx hb, trivial, trivial⟩)
      _ st1 hinv1 h).1
  · simp only [hf, Run.ret.injEq] at h
    subst h
    exact hinv
  · simp [hf] at h

theorem pollProject_quiet_step (E : Env) (s v l : String) (st0 st st1 : PollState)
    (p : SubProject)
    (hP : HoldsProject (fun x y ts => x = s → y = v → ts.WPLocale = l →
      SyncedAt st0.db s v l ts.LastModified) E p)
    (hinv : LeafPending s v l st0 st) (h : pollProject E st p = .ret st1) :
    LeafPending s v l st0 st1 := by
  have hinv1 : LeafPending s v l st0 (ensureSlug st p.Slug) :=
    LeafPending_of_view s v l st0 st _ (lookupLeaf_ensureSlug st p.Slug s v l)
      (congrArg (buildsFor s v l) (builds_ensureSlug st p.Slug)) hinv
  unfold pollProject at h
  rcases hf : fetchProject E p.Path with ⟨⟨_ | fproj, _ | e⟩⟩ | msg
  · simp [hf] at h
  · simp only [hf, Run.ret.injEq] at h
    subst h
    exact hinv1
  · simp only [hf] at h
    exact (forRange_invariant (pollVersion E p.Slug)
      (fun x => LeafPending s v l st0 x) (fun _ _ => True) (fun _ _ => True)
      (fun _ => trivial) (fun _ _ _ _ _ => trivial) fproj.SubProjects
      (fun _ _ _ _ _ _ => trivial)
      (fun pv hpv x y hx hb => ⟨pollVersion_quiet_step E s v l p.Slug st0 x y pv
        (hP fproj hf pv hpv) hx hb, trivial, trivial⟩)
      _ st1 hinv1 h).1
  · simp only [hf, Run.ret.injEq] at h
    subst h
    exact hinv1
  · simp [hf] at h

/-- A leaf that a returned cycle finds under the marker of each of its
visits (or does not visit at all) keeps its entry, and no call is made for
it. -/
theorem poll_leaf_quiet (E : Env) (st st1 : PollState) (s v l : String)
    (hk : ∀ b ∈ observedLeaves E, b.1 = s → b.2.1 = v → b.2.2.WPLocale = l →
      SyncedAt st.db s v l b.2.2.LastModified)
    (hp : poll E st = .ret st1) : LeafPending s v l st st1 := by
  have hP := holdsCycle_of_observed
    (fun x y ts => x = s → y = v → ts.WPLocale = l → SyncedAt st.db s v l ts.LastModified)
    E hk
  unfold poll at hp
  rcases hf : fetchProject E "woocommerce" with ⟨⟨_ | wc, _ | e⟩⟩ | msg
  · simp [hf] at hp
  · simp only [hf, Run.ret.injEq] at hp
    subst hp
    exact ⟨rfl, rfl⟩
  · simp only [hf] at hp
    exact (forRange_invariant (pollProject E)
      (fun x => LeafPending s v l st x) (fun _ _ => True) (fun _ _ => True)
      (fun _ => trivial) (fun _ _ _ _ _ => trivial) wc.SubProjects
      (fun _ _ _ _ _ _ => trivial)
      (fun p hpm x y hx hb => ⟨pollProject_quiet_step E s v l st x y p
        (hP wc hf p hpm) hx hb, trivial, trivial⟩)
      st st1 ⟨rfl, rfl⟩ hp).1
  · simp only [hf, Run.ret.injEq] at hp
    subst hp
    exact ⟨rfl, rfl⟩
  · simp [hf] at hp

/-- When no download can be stored, every build that returns gives the
empty reference. -/
theorem buildPackageZip_no_download (E : Env) (path locale pkg : String)
    (hd : ∀ u d, downloadTranslation E u d ≠ none)
    (h : (buildPackageZip E path locale).out = .ret pkg) : pkg = "" := by
  unfold buildPackageZip at h
  simp only at h
  split at h
  · split at h
    · simp only [Run.ret.injEq] at h
      exact h.symm
    · split at h
      · simp only [Run.ret.injEq] at h
        exact h.symm
      · rename_i hpo
        exact absurd hpo (hd _ _)
  · simp at h

/-! ## The calls a cycle makes -/

theorem mem_observedCalls (E : Env) (wc fp v : Project) (p pv : SubProject)
    (ts : TranslationSet) (hwc : fetchProject E "woocommerce" = .ret (some wc, none))
    (hp : p ∈ wc.SubProjects) (hfp : fetchProject E p.Path = .ret (some fp, none))
    (hpv : pv ∈ fp.SubProjects) (hv : fetchProject E pv.Path = .ret (some v, none))
    (hts : ts ∈ v.TranslationSets) :
    (⟨p.Slug, pv.Slug, pv.Path, ts.WPLocale⟩ : BuildCall) ∈ observedCalls E := by
  unfold observedCalls
  rw [fetched_of_fetchProject E _ wc hwc]
  refine List.mem_flatMap.mpr ⟨p, hp, ?_⟩
  rw [fetched_of_fetchProject E _ fp hfp]
  refine List.mem_flatMap.mpr ⟨pv, hpv, ?_⟩
  rw [fetched_of_fetchProject E _ v hv]
  exact List.mem_map.mpr ⟨ts, hts, rfl⟩

/-- The loop body adds to the log at most the call for the leaf it is at. -/
theorem pollLeaf_log (E : Env) (A : BuildCall → Prop) (ps vs vp : String)
    (st st1 : PollState) (ts : TranslationSet) (hA : A ⟨ps, vs, vp, ts.WPLocale⟩)
    (h : pollLeaf E ps vs vp st ts = .ret st1) :
    ∃ extra, st1.builds = st.builds ++ extra ∧ ∀ c ∈ extra, A c := by
  have hstore : ∀ st2, storeBuilt E ps vs vp st ts = .ret st2 →
      ∃ extra, st2.builds = st.builds ++ extra ∧ ∀ c ∈ extra, A c := by
    intro st2 h2
    cases hb : (buildPackageZip E vp ts.WPLocale).out with
    | fault msg => simp [storeBuilt, hb] at h2
    | ret pkg =>
      rw [storeBuilt_of_ret E ps vs vp st ts pkg hb] at h2
      simp only [Run.ret.injEq] at h2
      subst h2
      exact ⟨[⟨ps, vs, vp, ts.WPLocale⟩], rfl, fun c hc => by
        rw [List.mem_singleton.mp hc]
        exact hA⟩
  rw [pollLeaf_eq] at h
  cases hl : lookupLeaf st.db ps vs ts.WPLocale with
  | none =>
    rw [hl] at h
    exact hstore st1 h
  | some cur =>
    rw [hl] at h
    by_cases hm : cur.LastModified = ts.LastModified
    · simp only [ne_eq, hm, not_true_eq_false, if_false, Run.ret.injEq] at h
      subst h
      exact ⟨[], by simp, fun c hc => absurd hc (by simp)⟩
    · simp only [ne_eq, hm, not_false_eq_true, if_true] at h
      exact hstore st1 h

theorem log_grows_refl (A : BuildCall → Prop) (s : PollState) :
    ∃ extra, s.builds = s.builds ++ extra ∧ ∀ c ∈ extra, A c :=
  ⟨[], by simp, fun c hc => absurd hc (by simp)⟩

theorem log_grows_trans (A : BuildCall → Prop) (a b c : PollState)
    (h1 : ∃ extra, b.builds = a.builds ++ extra ∧ ∀ x ∈ extra, A x)
    (h2 : ∃ extra, c.builds = b.builds ++ extra ∧ ∀ x ∈ extra, A x) :
    ∃ extra, c.builds = a.builds ++ extra ∧ ∀ x ∈ extra, A x := by
  obtain ⟨e1, hb, hA1⟩ := h1
  obtain ⟨e2, hc, hA2⟩ := h2
  refine ⟨e1 ++ e2, by rw [hc, hb, List.append_assoc], fun x hx => ?_⟩
  rcases List.mem_append.mp hx with hx | hx
  · exact hA1 x hx
  · exact hA2 x hx

theorem pollVersion_log (E : Env) (A : BuildCall → Prop) (ps : String)
    (st st1 : PollState) (pv : SubProject)
    (hA : ∀ v, fetchProject E pv.Path = .ret (some v, none) →
      ∀ ts ∈ v.TranslationSets, A ⟨ps, pv.Slug, pv.Path, ts.WPLocale⟩)
    (h : pollVersion E ps st pv = .ret st1) :
    ∃ extra, st1.builds = st.builds ++ extra ∧ ∀ c ∈ extra, A c := by
  unfold pollVersion at h
  rcases hf : fetchProject E pv.Path with ⟨⟨_ | vproj, _ | e⟩⟩ | msg
  · simp [hf] at h
  · simp only [hf, Run.ret.injEq] at h
    subst h
    exact log_grows_refl A st
  · simp only [hf] at h
    have hloop := (forRange_establish (pollLeaf E ps pv.Slug pv.Path)
      (fun a b => ∃ extra, b.builds = a.builds ++ extra ∧ ∀ c ∈ extra, A c)
      (fun _ _ => True) (log_grows_refl A) (log_grows_trans A) vproj.TranslationSets
      (fun _ _ _ _ _ _ => trivial)
      (fun ts hts x y hb => ⟨pollLeaf_log E A ps pv.Slug pv.Path x y ts (hA vproj hf ts hts) hb,
        trivial⟩)
      _ st1 h).1
    rw [builds_ensureVer] at hloop
    exact hloop
  · simp only [hf, Run.ret.injEq] at h
    subst h
    exact log_grows_refl A st
  · simp [hf] at h

theorem pollProject_log (E : Env) (A : BuildCall → Prop) (st st1 : PollState)
    (p : SubProject)
    (hA : ∀ fp, fetchProject E p.Path = .ret (some fp, none) → ∀ pv ∈ fp.SubProjects,
      ∀ v, fetchProject E pv.Path = .ret (some v, none) →
        ∀ ts ∈ v.TranslationSets, A ⟨p.Slug, pv.Slug, pv.Path, ts.WPLocale⟩)
    (h : pollProject E st p = .ret st1) :
    ∃ extra, st1.builds = st.builds ++ extra ∧ ∀ c ∈ extra, A c := by
  unfold pollProject at h
  rcases hf : fetchProject E p.Path with ⟨⟨_ | fproj, _ | e⟩⟩ | msg
  · simp [hf] at h
  · simp only [hf, Run.ret.injEq] at h
    subst h
    exact ⟨[], by simp [builds_ensureSlug], fun c hc => absurd hc (by simp)⟩
  · simp only [hf] at h
    have hloop := (forRange_establish (pollVersion E p.Slug)
      (fun a b => ∃ extra, b.builds = a.builds ++ extra ∧ ∀ c ∈ extra, A c)
      (fun _ _ => True) (log_grows_refl A) (log_grows_trans A) fproj.SubProjects
      (fun _ _ _ _ _ _ => trivial)
      (fun pv hpv x y hb => ⟨pollVersion_log E A p.Slug x y pv (hA fproj hf pv hpv) hb,
        trivial⟩)
      _ st1 h).1
    rw [builds_ensureSlug] at hloop
    exact hloop
  · simp only [hf, Run.ret.injEq] at h
    subst h
    exact ⟨[], by simp [builds_ensureSlug], fun c hc => absurd hc (by simp)⟩
  · simp [hf] at h

/-- Every call a returned cycle adds to the log is the call of one of its
visits: made for a leaf it visits, with the path of the version visited. -/
theorem poll_log (E : Env) (st st1 : PollState) (h : poll E st = .ret st1) :
    ∃ extra, st1.builds = st.builds ++ extra ∧ ∀ c ∈ extra, c ∈ observedCalls E := by
  unfold poll at h
  rcases hf : fetchProject E "woocommerce" with ⟨⟨_ | wc, _ | e⟩⟩ | msg
  · simp [hf] at h
  · simp only [hf, Run.ret.injEq] at h
    subst h
    exact ⟨[], by simp, fun c hc => absurd hc (by simp)⟩
  · simp only [hf] at h
    exact (forRange_establish (pollProject E)
      (fun a b => ∃ extra, b.builds = a.builds ++ extra ∧ ∀ c ∈ extra, c ∈ observedCalls E)
      (fun _ _ => True) (log_grows_refl _) (log_grows_trans _) wc.SubProjects
      (fun _ _ _ _ _ _ => trivial)
      (fun p hp x y hb => ⟨pollProject_log E (fun c => c ∈ observedCalls E) x y p
        (fun fp hfp pv hpv v hv ts hts => mem_observedCalls E wc fp v p pv ts hf hp hfp hpv hv hts)
        hb, trivial⟩)
      st st1 h).1
  · simp only [hf, Run.ret.injEq] at h
    subst h
    exact ⟨[], by simp, fun c hc => absurd hc (by simp)⟩
  · simp [hf] at h

/-- The one call a cycle adds for a leaf is the call of a visit of it. -/
theorem poll_leaf_call_observed (E : Env) (st st1 : PollState) (s v l path : String)
    (h : poll E st = .ret st1)
    (hlog : buildsFor s v l st1.builds = buildsFor s v l st.builds ++ [⟨s, v, path, l⟩]) :
    (⟨s, v, path, l⟩ : BuildCall) ∈ observedCalls E := by
  obtain ⟨extra, hb, hA⟩ := poll_log E st st1 h
  rw [hb] at hlog
  have hsplit : buildsFor s v l (st.builds ++ extra) =
      buildsFor s v l st.builds ++ buildsFor s v l extra := by
    simp [buildsFor, List.filter_append]
  rw [hsplit] at hlog
  have hx := List.append_cancel_left hlog
  have hmem : (⟨s, v, path, l⟩ : BuildCall) ∈ buildsFor s v l extra := by
    rw [hx]
    exact List.mem_singleton.mpr rfl
  exact hA _ (List.mem_of_mem_filter hmem)

/-! ## The synchronizer at the claims -/

/-- C1 (as amended). Take a leaf that a returned cycle visits, always with
the same marker, and whose build fails: at each version path under which
the cycle visits the leaf, `buildPackageZip` for its locale gives the empty
reference when it returns. If the index held the leaf under that marker,
its entry is what it was and no build is made for it. Otherwise its entry
after the cycle is a new record with the marker seen and an empty `Package`,
whatever was there before. And the loop body at one leaf never changes the
entry of another leaf, so the entries of sibling locales do not depend on the
failure. -/
theorem C1_poll_failed_build (E : Env) (st st1 : PollState)
    (a : String × String × TranslationSet) (ha : a ∈ observedLeaves E)
    (hk : ∀ b ∈ observedLeaves E, b.1 = a.1 → b.2.1 = a.2.1 →
      b.2.2.WPLocale = a.2.2.WPLocale → b.2.2.LastModified = a.2.2.LastModified)
    (hfail : ∀ c ∈ observedCalls E, c.pSlug = a.1 → c.pvSlug = a.2.1 →
      c.locale = a.2.2.WPLocale →
      ∀ pkg, (buildPackageZip E c.path c.locale).out = .ret pkg → pkg = "")
    (hp : poll E st = .ret st1) :
    (SyncedAt st.db a.1 a.2.1 a.2.2.WPLocale a.2.2.LastModified →
        lookupLeaf st1.db a.1 a.2.1 a.2.2.WPLocale = lookupLeaf st.db a.1 a.2.1 a.2.2.WPLocale ∧
          buildsFor a.1 a.2.1 a.2.2.WPLocale st1.builds =
            buildsFor a.1 a.2.1 a.2.2.WPLocale st.builds) ∧
      (¬ SyncedAt st.db a.1 a.2.1 a.2.2.WPLocale a.2.2.LastModified →
        lookupLeaf st1.db a.1 a.2.1 a.2.2.WPLocale =
          some ⟨a.2.2.WPLocale, a.2.2.LastModified,
            GetLocaleProp E a.2.2.WPLocale "EnglishName",
            GetLocaleProp E a.2.2.WPLocale "NativeName", ""⟩) ∧
      ∀ ps vs vp st2 st3 ts, pollLeaf E ps vs vp st2 ts = .ret st3 →
        ∀ s v l, (s ≠ ps ∨ v ≠ vs ∨ l ≠ ts.WPLocale) →
          lookupLeaf st3.db s v l = lookupLeaf st2.db s v l := by
  refine ⟨fun hs => ?_, fun hn => ?_, ?_⟩
  · exact poll_leaf_quiet E st st1 a.1 a.2.1 a.2.2.WPLocale
      (fun b hb h1 h2 h3 => by rw [hk b hb h1 h2 h3]; exact hs) hp
  · obtain ⟨path, pkg, hout, hlog, hent⟩ := poll_leaf_rebuilt E st st1 a ha hk hn hp
    have hcall := poll_leaf_call_observed E st st1 a.1 a.2.1 a.2.2.WPLocale path hp hlog
    rw [hent, hfail _ hcall rfl rfl rfl pkg hout]
  · intro ps vs vp st2 st3 ts hrun s v l hne
    exact (pollLeaf_other E ps vs vp st2 st3 ts s v l hne hrun).1

/-- C1, an instance: the index holds `es_ES` of `stable` under the marker
of January with a built package; the cycle sees `es_ES` with the marker of
May under `stable` and under `trunk`, and the German set under `stable`;
only the download of the `.po` export of `es_ES` of `stable` fails. After
the cycle the `es_ES` record of `stable` has the marker of May and an empty
`Package`, while the German sibling and `es_ES` of `trunk` have their built
packages. -/
theorem C1_poll_failed_build_witness :
    lookupLeaf esIndex "woocommerce-bookings" "stable" "es_ES" = some esTranslation ∧
      (buildPackageZip (twoVersionEnv [esSetNew, deSet] [esSetNew] esPoFails)
        "woocommerce/woocommerce-bookings/stable" "es_ES").out = .ret "" ∧
      (buildPackageZip (twoVersionEnv [esSetNew, deSet] [esSetNew] esPoFails)
        "woocommerce/woocommerce-bookings/trunk" "es_ES").out =
        .ret "/downloads/woocommerce-bookings/trunk/woocommerce-bookings-trunk-es_ES.zip" ∧
      ∃ st1, poll (twoVersionEnv [esSetNew, deSet] [esSetNew] esPoFails)
          ⟨esIndex, none, []⟩ = .ret st1 ∧
        lookupLeaf st1.db "woocommerce-bookings" "stable" "es_ES" =
          some ⟨"es_ES", "2024-05-05 00:00:00", "Spanish (Spain)", "Español", ""⟩ ∧
        lookupLeaf st1.db "woocommerce-bookings" "stable" "de_DE" =
          some ⟨"de_DE", "2024-02-02 00:00:00", "German", "Deutsch",
            "/downloads/woocommerce-bookings/stable/woocommerce-bookings-stable-de_DE.zip"⟩ ∧
        lookupLeaf st1.db "woocommerce-bookings" "trunk" "es_ES" =
          some ⟨"es_ES", "2024-05-05 00:00:00", "Spanish (Spain)", "Español",
            "/downloads/woocommerce-bookings/trunk/woocommerce-bookings-trunk-es_ES.zip"⟩ :=
  have hobs : observedLeaves (twoVersionEnv [esSetNew, deSet] [esSetNew] esPoFails) =
      [("woocommerce-bookings", "stable", esSetNew),
       ("woocommerce-bookings", "stable", deSet),
       ("woocommerce-bookings", "trunk", esSetNew)] := by decide
  have hcalls : observedCalls (twoVersionEnv [esSetNew, deSet] [esSetNew] esPoFails) =
      [⟨"woocommerce-bookings", "stable", "woocommerce/woocommerce-bookings/stable", "es_ES"⟩,
       ⟨"woocommerce-bookings", "stable", "woocommerce/woocommerce-bookings/stable", "de_DE"⟩,
       ⟨"woocommerce-bookings", "trunk", "woocommerce/woocommerce-bookings/trunk",
         "es_ES"⟩] := by decide
  have ha : ("woocommerce-bookings", "stable", esSetNew) ∈
      observedLeaves (twoVersionEnv [esSetNew, deSet] [esSetNew] esPoFails) := by
    rw [hobs]
    exact List.mem_cons_self _ _
  have hk : ∀ b ∈ observedLeaves (twoVersionEnv [esSetNew, deSet] [esSetNew] esPoFails),
      b.1 = "woocommerce-bookings" → b.2.1 = "stable" →
      b.2.2.WPLocale = esSetNew.WPLocale → b.2.2.LastModified = esSetNew.LastModified := by
    intro b hb
    rw [hobs] at hb
    revert b
    decide
  have hfail : ∀ c ∈ observedCalls (twoVersionEnv [esSetNew, deSet] [esSetNew] esPoFails),
      c.pSlug = "woocommerce-bookings" → c.pvSlug = "stable" → c.locale = esSetNew.WPLocale →
      ∀ pkg, (buildPackageZip (twoVersionEnv [esSetNew, deSet] [esSetNew] esPoFails)
        c.path c.locale).out = .ret pkg → pkg = "" := by
    intro c hc _ hv hl pkg hout
    rw [hcalls] at hc
    simp only [List.mem_cons, List.mem_singleton, List.mem_nil_iff, or_false] at hc
    rcases hc with rfl | rfl | rfl
    · have hempty : (buildPackageZip (twoVersionEnv [esSetNew, deSet] [esSetNew] esPoFails)
          "woocommerce/woocommerce-bookings/stable" "es_ES").out = .ret "" := by decide
      rw [hempty] at hout
      cases hout
      rfl
    · exact absurd hl (by decide)
    · exact absurd hv (by decide)
  have hp : poll (twoVersionEnv [esSetNew, deSet] [esSetNew] esPoFails) ⟨esIndex, none, []⟩ =
      .ret ⟨[("woocommerce-bookings",
          [("stable",
            [("es_ES", ⟨"es_ES", "2024-05-05 00:00:00", "Spanish (Spain)", "Español", ""⟩),
             ("de_DE", ⟨"de_DE", "2024-02-02 00:00:00", "German", "Deutsch",
               "/downloads/woocommerce-bookings/stable/woocommerce-bookings-stable-de_DE.zip"⟩)]),
           ("trunk",
            [("es_ES", ⟨"es_ES", "2024-05-05 00:00:00", "Spanish (Spain)", "Español",
               "/downloads/woocommerce-bookings/trunk/woocommerce-bookings-trunk-es_ES.zip"⟩)])])],
        none,
        [⟨"woocommerce-bookings", "stable", "woocommerce/woocommerce-bookings/stable",
           "es_ES"⟩,
         ⟨"woocommerce-bookings", "stable", "woocommerce/woocommerce-bookings/stable",
           "de_DE"⟩,
         ⟨"woocommerce-bookings", "trunk", "woocommerce/woocommerce-bookings/trunk",
           "es_ES"⟩]⟩ := by decide
  have hn : ¬ SyncedAt (PollState.mk esIndex none []).db "woocommerce-bookings" "stable"
      esSetNew.WPLocale esSetNew.LastModified := by
    rintro ⟨t, ht, hm⟩
    have he : lookupLeaf (PollState.mk esIndex none []).db "woocommerce-bookings" "stable"
        esSetNew.WPLocale = some esTranslation := by decide
    rw [he] at ht
    cases ht
    exact absurd hm (by decide)
  ⟨by decide, by decide, by decide, _, hp,
    (C1_poll_failed_build (twoVersionEnv [esSetNew, deSet] [esSetNew] esPoFails)
      ⟨esIndex, none, []⟩ _ ("woocommerce-bookings", "stable", esSetNew) ha hk hfail hp).2.1 hn,
    by decide, by decide⟩

/-- C1 as stated fails. In a cycle over the Spanish and the German set in
which the `.po` download for `es_ES` fails, a fresh index ends up with an
`es_ES` record whose `Package` is empty; and an index that held a built
`es_ES` package under an older marker ends up with that record replaced by
one with an empty `Package`. -/
theorem C1_counterexample_empty_package_stored :
    (buildPackageZip (scenarioEnv [esSet, deSet] esPoFails)
        "woocommerce/woocommerce-bookings/stable" "es_ES").out = .ret "" ∧
      lookupLeaf freshState.db "woocommerce-bookings" "stable" "es_ES" = none ∧
      poll (scenarioEnv [esSet, deSet] esPoFails) freshState =
        .ret ⟨[("woocommerce-bookings", [("stable",
          [("es_ES", ⟨"es_ES", "2024-01-01 00:00:00", "Spanish (Spain)", "Español", ""⟩),
           ("de_DE", ⟨"de_DE", "2024-02-02 00:00:00", "German", "Deutsch",
             "/downloads/woocommerce-bookings/stable/woocommerce-bookings-stable-de_DE.zip"⟩)])])],
          none,
          [⟨"woocommerce-bookings", "stable", "woocommerce/woocommerce-bookings/stable",
             "es_ES"⟩,
           ⟨"woocommerce-bookings", "stable", "woocommerce/woocommerce-bookings/stable",
             "de_DE"⟩]⟩ ∧
      lookupLeaf esIndex "woocommerce-bookings" "stable" "es_ES" = some esTranslation ∧
      poll (scenarioEnv [esSetNew] esPoFails) ⟨esIndex, none, []⟩ =
        .ret ⟨[("woocommerce-bookings", [("stable",
          [("es_ES", ⟨"es_ES", "2024-05-05 00:00:00", "Spanish (Spain)", "Español", ""⟩)])])],
          none,
          [⟨"woocommerce-bookings", "stable", "woocommerce/woocommerce-bookings/stable",
            "es_ES"⟩]⟩ := by
  refine ⟨by decide, by decide, by decide, by decide, by decide⟩

/-- C2 (as amended). In a world whose responses are fixed and in which no
two translation sets visited under the same project slug, version slug and
wp_locale carry different markers, a cycle run right after a cycle that
returned returns the very state it started from: the index is the same and
no `buildPackageZip` call is added. -/
theorem C2_poll_quiet_cycle_idempotent (E : Env) (st st1 : PollState)
    (hc : ConsistentMarkers E) (h : poll E st = .ret st1) : poll E st1 = .ret st1 := by
  rcases hf : fetchProject E "woocommerce" with ⟨⟨_ | wc, _ | e⟩⟩ | msg
  · simp [poll, hf] at h
  · simp only [poll, hf, Run.ret.injEq] at h ⊢
    subst h
    rfl
  · exact poll_noop E st1 wc hf
      (poll_establish (markerOf E) E st st1 wc (agreeCycle_markerOf E hc) hf h).2
  · simp only [poll, hf, Run.ret.injEq] at h ⊢
    subst h
    rfl
  · simp [poll, hf] at h

/-- C2, an instance: the Spanish and the German set, from a fresh process. -/
theorem C2_poll_quiet_cycle_idempotent_witness :
    ConsistentMarkers (scenarioEnv [esSet, deSet] noFail) ∧
      poll (scenarioEnv [esSet, deSet] noFail) freshState = .ret afterFirstCycle ∧
      poll (scenarioEnv [esSet, deSet] noFail) afterFirstCycle = .ret afterFirstCycle :=
  have hobs : observedLeaves (scenarioEnv [esSet, deSet] noFail) =
      [("woocommerce-bookings", "stable", esSet),
       ("woocommerce-bookings", "stable", deSet)] := by decide
  have hc : ConsistentMarkers (scenarioEnv [esSet, deSet] noFail) := by
    intro a ha b hb
    rw [hobs] at ha hb
    revert b
    revert a
    decide
  have h1 : poll (scenarioEnv [esSet, deSet] noFail) freshState = .ret afterFirstCycle := by
    decide
  ⟨hc, h1, C2_poll_quiet_cycle_idempotent _ freshState afterFirstCycle hc h1⟩

/-- C2 as stated fails. When a version lists two translation sets for the
wp_locale `de_DE` with different markers, the first cycle builds twice, and
a second cycle with the same responses builds twice again (four calls in
all), although the index it leaves is the same. -/
theorem C2_counterexample_second_cycle_rebuilds :
    poll (scenarioEnv [deSet, deFormalSet] noFail) freshState = .ret afterGermanCycle ∧
      poll (scenarioEnv [deSet, deFormalSet] noFail) afterGermanCycle =
        .ret { afterGermanCycle with
          builds := afterGermanCycle.builds ++
            [⟨"woocommerce-bookings", "stable", "woocommerce/woocommerce-bookings/stable",
               "de_DE"⟩,
             ⟨"woocommerce-bookings", "stable", "woocommerce/woocommerce-bookings/stable",
               "de_DE"⟩] } ∧
      poll (scenarioEnv [deSet, deFormalSet] noFail) afterGermanCycle ≠
        .ret afterGermanCycle := by
  refine ⟨by decide, by decide, by decide⟩

/-- C3 (as amended). Take a leaf that a returned cycle visits, always with
the same marker `B`, and that the index holds under another marker or not at
all. Then exactly one `buildPackageZip` call is made for the leaf during the
cycle (not two, also when there was no entry), the call returns a reference,
and the entry of the leaf after the cycle is a whole new record with the
marker `B` and that reference as `Package`. -/
theorem C3_poll_change_detection (E : Env) (st st1 : PollState)
    (a : String × String × TranslationSet) (ha : a ∈ observedLeaves E)
    (hk : ∀ b ∈ observedLeaves E, b.1 = a.1 → b.2.1 = a.2.1 →
      b.2.2.WPLocale = a.2.2.WPLocale → b.2.2.LastModified = a.2.2.LastModified)
    (hchg : ∀ cur, lookupLeaf st.db a.1 a.2.1 a.2.2.WPLocale = some cur →
      cur.LastModified ≠ a.2.2.LastModified)
    (hp : poll E st = .ret st1) :
    ∃ path pkg, (buildPackageZip E path a.2.2.WPLocale).out = .ret pkg ∧
      buildsFor a.1 a.2.1 a.2.2.WPLocale st1.builds =
        buildsFor a.1 a.2.1 a.2.2.WPLocale st.builds ++
          [⟨a.1, a.2.1, path, a.2.2.WPLocale⟩] ∧
      lookupLeaf st1.db a.1 a.2.1 a.2.2.WPLocale =
        some ⟨a.2.2.WPLocale, a.2.2.LastModified,
          GetLocaleProp E a.2.2.WPLocale "EnglishName",
          GetLocaleProp E a.2.2.WPLocale "NativeName", pkg⟩ :=
  poll_leaf_rebuilt E st st1 a ha hk (fun ⟨cur, hcur, hm⟩ => hchg cur hcur hm) hp

/-- C3, an instance: the index holds `es_ES` under the marker of January
and the cycle sees the set with the marker of May. -/
theorem C3_poll_change_detection_witness :
    lookupLeaf esIndex "woocommerce-bookings" "stable" "es_ES" = some esTranslation ∧
      ∃ st1 path pkg, poll (scenarioEnv [esSetNew] noFail) ⟨esIndex, none, []⟩ = .ret st1 ∧
        (buildPackageZip (scenarioEnv [esSetNew] noFail) path "es_ES").out = .ret pkg ∧
        buildsFor "woocommerce-bookings" "stable" "es_ES" st1.builds =
          [⟨"woocommerce-bookings", "stable", path, "es_ES"⟩] ∧
        lookupLeaf st1.db "woocommerce-bookings" "stable" "es_ES" =
          some ⟨"es_ES", "2024-05-05 00:00:00", "Spanish (Spain)", "Español", pkg⟩ :=
  have hobs : observedLeaves (scenarioEnv [esSetNew] noFail) =
      [("woocommerce-bookings", "stable", esSetNew)] := by decide
  have ha : ("woocommerce-bookings", "stable", esSetNew) ∈
      observedLeaves (scenarioEnv [esSetNew] noFail) := by
    rw [hobs]
    exact List.mem_singleton.mpr rfl
  have hk : ∀ b ∈ observedLeaves (scenarioEnv [esSetNew] noFail),
      b.1 = "woocommerce-bookings" → b.2.1 = "stable" →
      b.2.2.WPLocale = esSetNew.WPLocale → b.2.2.LastModified = esSetNew.LastModified := by
    intro b hb _ _ _
    rw [hobs] at hb
    rw [List.mem_singleton.mp hb]
  have hchg : ∀ cur, lookupLeaf (PollState.mk esIndex none []).db "woocommerce-bookings"
      "stable" esSetNew.WPLocale = some cur → cur.LastModified ≠ esSetNew.LastModified := by
    intro cur hcur
    have he : lookupLeaf (PollState.mk esIndex none []).db "woocommerce-bookings" "stable"
        esSetNew.WPLocale = some esTranslation := by decide
    rw [he] at hcur
    cases hcur
    decide
  have hp : poll (scenarioEnv [esSetNew] noFail) ⟨esIndex, none, []⟩ =
      .ret ⟨[("woocommerce-bookings", [("stable",
          [("es_ES", ⟨"es_ES", "2024-05-05 00:00:00", "Spanish (Spain)", "Español",
            "/downloads/woocommerce-bookings/stable/woocommerce-bookings-stable-es_ES.zip"⟩)])])],
        none,
        [⟨"woocommerce-bookings", "stable", "woocommerce/woocommerce-bookings/stable",
          "es_ES"⟩]⟩ := by decide
  have h := C3_poll_change_detection (scenarioEnv [esSetNew] noFail) ⟨esIndex, none, []⟩ _
    ("woocommerce-bookings", "stable", esSetNew) ha hk hchg hp
  ⟨by decide, _, h.elim fun path hpath => hpath.elim fun pkg hpkg =>
    ⟨path, pkg, hp, hpkg.1, hpkg.2.1, hpkg.2.2⟩⟩

/-- C3 as stated fails. The index holds `de_DE` under the marker of
January; the cycle sees two translation sets for `de_DE`, the first with the
marker of February. Two builds are made for the leaf, not one, and the entry
after the cycle carries the marker of March, not the marker of February seen
for the leaf. -/
theorem C3_counterexample_two_builds_other_marker :
    lookupLeaf deIndexOld "woocommerce-bookings" "stable" "de_DE" =
        some ⟨"de_DE", "2024-01-01 00:00:00", "German", "Deutsch",
          "/downloads/woocommerce-bookings/stable/woocommerce-bookings-stable-de_DE.zip"⟩ ∧
      ("woocommerce-bookings", "stable", deSet) ∈
        observedLeaves (scenarioEnv [deSet, deFormalSet] noFail) ∧
      deSet.LastModified = "2024-02-02 00:00:00" ∧
      poll (scenarioEnv [deSet, deFormalSet] noFail) ⟨deIndexOld, none, []⟩ =
        .ret ⟨[("woocommerce-bookings", [("stable",
          [("de_DE", ⟨"de_DE", "2024-03-03 00:00:00", "German", "Deutsch",
            "/downloads/woocommerce-bookings/stable/woocommerce-bookings-stable-de_DE.zip"⟩)])])],
          none,
          [⟨"woocommerce-bookings", "stable", "woocommerce/woocommerce-bookings/stable",
             "de_DE"⟩,
           ⟨"woocommerce-bookings", "stable", "woocommerce/woocommerce-bookings/stable",
             "de_DE"⟩]⟩ := by
  refine ⟨by decide, by decide, by decide, by decide⟩

end WcLangPacks
